import Mathlib

/-!
Verification development for the OTA update engine (src/ota.py, src/delta.py).

Bytes are modelled as `List Nat` (each entry a value 0..255); machine
integers are `Nat` with explicit `% 2 ^ 32` where the source relies on
32-bit wrap-around.  Filesystem trees are association lists from relative
path (`String`) to file content.  Loops of the source are embedded as
fuel-based structural recursions so that every definition evaluates inside
the kernel; wrappers supply fuel that provably suffices.
-/

set_option maxHeartbeats 1000000
set_option maxRecDepth 100000

namespace Ota

/-- Word size 2 ^ 32 used by the hash primitives. -/
def pow32 : Nat := 4294967296

/-- Right rotation of a 32-bit word by n bits. -/
def rotr32 (n x : Nat) : Nat := ((x >>> n) ||| (x <<< (32 - n))) % pow32

/-- Left rotation of a 32-bit word by n bits. -/
def rotl32 (n x : Nat) : Nat := ((x <<< n) ||| (x >>> (32 - n))) % pow32

/-- Big-endian encoding of n into w bytes. -/
def toBE (w n : Nat) : List Nat :=
  (List.range w).map (fun i => (n >>> (8 * (w - 1 - i))) % 256)

/-- Group a byte list into big-endian 32-bit words (incomplete tail dropped;
the inputs are always multiples of 4 bytes). -/
def toWordsBE : List Nat → List Nat
  | a :: b :: c :: d :: rest =>
      (a * 16777216 + b * 65536 + c * 256 + d) :: toWordsBE rest
  | _ => []

/-- Split a list into chunks of 64 elements, with explicit fuel. -/
def chunks64 : Nat → List Nat → List (List Nat)
  | 0, _ => []
  | _, [] => []
  | Nat.succ f, l => l.take 64 :: chunks64 f (l.drop 64)

/-- Merkle-Damgard padding shared by SHA-256 and SHA-1: append 0x80, zero
padding to 56 mod 64, then the 64-bit big-endian bit length. -/
def shaPad (msg : List Nat) : List Nat :=
  let L := msg.length
  let k := (55 + 64 - (L % 64)) % 64
  msg ++ [128] ++ List.replicate k 0 ++ toBE 8 (8 * L)

/-- Round constants of SHA-256. -/
def sha256K : List Nat :=
  [1116352408, 1899447441, 3049323471, 3921009573, 961987163, 1508970993,
   2453635748, 2870763221, 3624381080, 310598401, 607225278, 1426881987,
   1925078388, 2162078206, 2614888103, 3248222580, 3835390401, 4022224774,
   264347078, 604807628, 770255983, 1249150122, 1555081692, 1996064986,
   2554220882, 2821834349, 2952996808, 3210313671, 3336571891, 3584528711,
   113926993, 338241895, 666307205, 773529912, 1294757372, 1396182291,
   1695183700, 1986661051, 2177026350, 2456956037, 2730485921, 2820302411,
   3259730800, 3345764771, 3516065817, 3600352804, 4094571909, 275423344,
   430227734, 506948616, 659060556, 883997877, 958139571, 1322822218,
   1537002063, 1747873779, 1955562222, 2024104815, 2227730452, 2361852424,
   2428436474, 2756734187, 3204031479, 3329325298]

/-- Initial state of SHA-256. -/
def sha256Init : List Nat :=
  [1779033703, 3144134277, 1013904242, 2773480762, 1359893119, 2600822924,
   528734635, 1541459225]

/-- Message-schedule extension of SHA-256: run n extension steps, each
appending one word derived from the last 16. -/
def sha256Extend : Nat → List Nat → List Nat
  | 0, ws => ws
  | Nat.succ f, ws =>
      let n := ws.length
      let w15 := ws.getD (n - 15) 0
      let w2 := ws.getD (n - 2) 0
      let w16 := ws.getD (n - 16) 0
      let w7 := ws.getD (n - 7) 0
      let s0 := (rotr32 7 w15) ^^^ (rotr32 18 w15) ^^^ (w15 >>> 3)
      let s1 := (rotr32 17 w2) ^^^ (rotr32 19 w2) ^^^ (w2 >>> 10)
      sha256Extend f (ws ++ [(w16 + s0 + w7 + s1) % pow32])

/-- One SHA-256 round, acting on an 8-word state. -/
def sha256Round (st : List Nat) (kw : Nat × Nat) : List Nat :=
  let a := st.getD 0 0
  let b := st.getD 1 0
  let c := st.getD 2 0
  let d := st.getD 3 0
  let e := st.getD 4 0
  let f := st.getD 5 0
  let g := st.getD 6 0
  let h := st.getD 7 0
  let s1 := (rotr32 6 e) ^^^ (rotr32 11 e) ^^^ (rotr32 25 e)
  let ch := (e &&& f) ^^^ ((pow32 - 1 - e) &&& g)
  let t1 := (h + s1 + ch + kw.1 + kw.2) % pow32
  let s0 := (rotr32 2 a) ^^^ (rotr32 13 a) ^^^ (rotr32 22 a)
  let mj := (a &&& b) ^^^ (a &&& c) ^^^ (b &&& c)
  let t2 := (s0 + mj) % pow32
  [(t1 + t2) % pow32, a, b, c, (d + t1) % pow32, e, f, g]

/-- SHA-256 compression of one 64-byte block into the running state. -/
def sha256Compress (st : List Nat) (block : List Nat) : List Nat :=
  let w := sha256Extend 48 (toWordsBE block)
  let fin := (sha256K.zip w).foldl sha256Round st
  (st.zip fin).map (fun p => (p.1 + p.2) % pow32)

/-- SHA-256 digest of a byte string, as 32 bytes. -/
def sha256Bytes (msg : List Nat) : List Nat :=
  let padded := shaPad msg
  ((chunks64 (padded.length + 1) padded).foldl sha256Compress sha256Init).flatMap
    (toBE 4)

/-- Hex character for a nibble value. -/
def hexChar (n : Nat) : Char :=
  (String.toList ("0123456789abcdef")).getD n '0'

/-- Lowercase hex rendering of a byte string. -/
def hexOfBytes (bs : List Nat) : String :=
  String.mk (bs.flatMap (fun b => [hexChar (b / 16), hexChar (b % 16)]))

/-- SHA-256 hex digest, as returned by hashlib hexdigest. -/
def sha256Hex (msg : List Nat) : String := hexOfBytes (sha256Bytes msg)

/-- Round constants of SHA-1, one per 20-round group. -/
def sha1K : List Nat := [1518500249, 1859775393, 2400959708, 3395469782]

/-- Initial state of SHA-1. -/
def sha1Init : List Nat :=
  [1732584193, 4023233417, 2562383102, 271733878, 3285377520]

/-- Message-schedule extension of SHA-1: run n steps, each appending the
left-rotation of the xor of four earlier words. -/
def sha1Extend : Nat → List Nat → List Nat
  | 0, ws => ws
  | Nat.succ f, ws =>
      let n := ws.length
      let x := (ws.getD (n - 3) 0) ^^^ (ws.getD (n - 8) 0) ^^^
               (ws.getD (n - 14) 0) ^^^ (ws.getD (n - 16) 0)
      sha1Extend f (ws ++ [rotl32 1 x])

/-- One SHA-1 round, acting on a 5-word state; i is the round index. -/
def sha1Round (st : List Nat) (iw : Nat × Nat) : List Nat :=
  let a := st.getD 0 0
  let b := st.getD 1 0
  let c := st.getD 2 0
  let d := st.getD 3 0
  let e := st.getD 4 0
  let i := iw.1
  let f :=
    if i < 20 then (b &&& c) ^^^ ((pow32 - 1 - b) &&& d)
    else if i < 40 then b ^^^ c ^^^ d
    else if i < 60 then (b &&& c) ^^^ (b &&& d) ^^^ (c &&& d)
    else b ^^^ c ^^^ d
  let k := sha1K.getD (i / 20) 0
  let t := (rotl32 5 a + f + e + k + iw.2) % pow32
  [t, a, rotl32 30 b, c, d]

/-- SHA-1 compression of one 64-byte block into the running state. -/
def sha1Compress (st : List Nat) (block : List Nat) : List Nat :=
  let w := sha1Extend 64 (toWordsBE block)
  let fin := ((List.range 80).zip w).foldl sha1Round st
  (st.zip fin).map (fun p => (p.1 + p.2) % pow32)

/-- SHA-1 digest of a byte string, as 20 bytes. -/
def sha1Bytes (msg : List Nat) : List Nat :=
  let padded := shaPad msg
  ((chunks64 (padded.length + 1) padded).foldl sha1Compress sha1Init).flatMap
    (toBE 4)

/-- SHA-1 hex digest. -/
def sha1Hex (msg : List Nat) : String := hexOfBytes (sha1Bytes msg)

/-- UTF-8 encoding of one character. -/
def utf8Char (c : Char) : List Nat :=
  let n := c.toNat
  if n < 128 then [n]
  else if n < 2048 then [192 + n / 64, 128 + n % 64]
  else if n < 65536 then [224 + n / 4096, 128 + (n / 64) % 64, 128 + n % 64]
  else [240 + n / 262144, 128 + (n / 4096) % 64, 128 + (n / 64) % 64,
        128 + n % 64]

/-- UTF-8 byte encoding of a string (str.encode in the source). -/
def strBytes (s : String) : List Nat := s.toList.flatMap utf8Char

/-- HMAC-SHA-256 hex digest, embedding the portable fallback implementation
of the source (ota.py, function named with hmac sha256 hex in its name):
keys longer than the 64-byte block are first hashed, the key is zero-padded
to 64 bytes, and the usual inner/outer construction follows. -/
def hmacSha256Hex (key data : List Nat) : String :=
  let key1 := if 64 < key.length then sha256Bytes key else key
  let keyP := key1 ++ List.replicate (64 - key1.length) 0
  let oKey := keyP.map (fun kb => kb ^^^ 92)
  let iKey := keyP.map (fun kb => kb ^^^ 54)
  let inner := sha256Bytes (iKey ++ data)
  hexOfBytes (sha256Bytes (oKey ++ inner))

/-! ## String primitives

Python string operations used by the engine are embedded over `List Char`
by structural recursion so that they evaluate inside the kernel: split on
the slash character, startswith, join.  They agree with the Python
semantics by construction (splitting the empty string yields one empty
segment, adjacent separators yield empty segments). -/

/-- Split a character list at every occurrence of a separator character
(semantics of the Python str.split with a one-character separator). -/
def splitChar (c : Char) : List Char → List (List Char)
  | [] => [[]]
  | x :: xs =>
      if x = c then [] :: splitChar c xs
      else
        match splitChar c xs with
        | h :: t => (x :: h) :: t
        | [] => [[x]]

/-- Path separator. -/
def slash : String := "/"

/-- Slash-separated segments of a path string. -/
def segsOf (s : String) : List String :=
  (splitChar '/' s.toList).map String.mk

/-- True when the string starts with a slash. -/
def headIsSlash (s : String) : Bool :=
  match s.toList with
  | c :: _ => c = '/'
  | [] => false

/-- Prefix test over strings (semantics of the Python str.startswith). -/
def listStarts : List Char → List Char → Bool
  | [], _ => true
  | _ :: _, [] => false
  | a :: as, b :: bs => a = b && listStarts as bs

/-- String version of the prefix test: strStarts pre s holds when s starts
with pre. -/
def strStarts (pre s : String) : Bool := listStarts pre.toList s.toList

/-- Join a list of strings with a separator (semantics of the Python
str.join). -/
def joinWith (sep : String) : List String → String
  | [] => ""
  | h :: t => t.foldl (fun acc x => acc ++ sep ++ x) h

/-- Boolean membership of a string in a list of strings. -/
def memStr (l : List String) (s : String) : Bool :=
  l.any (fun x => x = s)

/-! ## Path guard (ota.py, OTA normalize and permission methods) -/

/-- The segments rejected by path normalization: empty, dot, dot-dot. -/
def badSegs : List String := ["", ".", ".."]

/-- Error raised by the engine (OTAError in the source); constructors name
the raise sites relevant to the claims. -/
inductive OtaErr where
  | invalidPath (p : String)
  | missingSignature
  | signatureMismatch
  | hiddenDirectory
  deriving DecidableEq, Repr

/-- Embedding of the private path-normalization method of class OTA
(ota.py lines 940-946): reject a leading slash, reject any empty, dot or
dot-dot segment, and return the slash-joined segments. -/
def normalizePath (rel : String) : Except OtaErr String :=
  if headIsSlash rel then .error (.invalidPath rel)
  else
    let parts := segsOf rel
    if parts.any (fun p => memStr badSegs p) then .error (.invalidPath rel)
    else .ok (joinWith slash parts)

/-- Embedding of the permission check of class OTA (ota.py lines 399-411)
for already-normalized paths (the method first normalizes its argument,
which is the identity on valid paths); allow and ignore hold the entries of
the configuration after the constructor strips surrounding slashes.  An
empty list models the corresponding filter being absent. -/
def isPermitted (allow ignore : List String) (path : String) : Bool :=
  (allow.isEmpty || memStr allow path ||
    allow.any (fun a => strStarts (a ++ slash) path)) &&
  !(memStr ignore path ||
    ignore.any (fun i => strStarts (i ++ slash) path))

/-! ## Storage gate (ota.py, OTA storage-check and plan-validation methods) -/

/-- Embedding of the private storage check of class OTA (ota.py lines
502-508): with free bytes unknown the check passes; otherwise it fails
exactly when free is below the maximum of the requirement and the
configured minimum free storage. -/
def checkStorage (free : Option Nat) (minFreeStorage required : Nat) : Bool :=
  match free with
  | none => true
  | some f => if f < max required minFreeStorage then false else true

/-- A candidate file of an update plan: relative path and size in bytes. -/
structure Candidate where
  path : String
  size : Nat
  deriving DecidableEq, Repr

/-- Embedding of the private plan-validation method of class OTA (ota.py
lines 510-538): an empty plan is valid; otherwise every candidate path must
normalize and be permitted, and the storage check must pass for twice the
total size. -/
def validateUpdatePlan (allow ignore : List String) (free : Option Nat)
    (minFreeStorage : Nat) (cands : List Candidate) : Bool :=
  if cands.isEmpty then true
  else if cands.any (fun e =>
      !(normalizePath e.path).isOk || !(isPermitted allow ignore e.path)) then
    false
  else
    let total := (cands.map (fun e => e.size)).sum
    checkStorage free minFreeStorage (total * 2)

/-! ## Filesystem model

A filesystem state holds the live tree, the staging directory and the
backup directory as association lists from relative path to content
(contents are abstract and modelled as natural numbers), plus the
installed-version record as a (ref, commit) pair.  Lookup takes the first
matching key; update removes the key first, so maps built by the
operations always have distinct keys. -/

/-- File trees: association lists from relative path to abstract content. -/
def FileMap : Type := List (String × Nat)

instance : DecidableEq FileMap := by
  unfold FileMap
  infer_instance

/-- Lookup of a path in a file tree (first match). -/
def findF : FileMap → String → Option Nat
  | [], _ => none
  | e :: t, p => if e.1 = p then some e.2 else findF t p

/-- Remove a path from a file tree. -/
def delF : FileMap → String → FileMap
  | [], _ => []
  | e :: t, p => if e.1 = p then delF t p else e :: delF t p

/-- Write a path in a file tree, overwriting any previous entry. -/
def setF (m : FileMap) (p : String) (c : Nat) : FileMap :=
  (p, c) :: delF m p

/-- Keys of a file tree. -/
def keysF (m : FileMap) : List String := m.map Prod.fst

deriving instance DecidableEq for Except

/-- Filesystem state: live tree, stage, backup, installed-version record. -/
structure Fs where
  live : FileMap
  stage : FileMap
  backup : FileMap
  version : String × String
  deriving DecidableEq

/-! ## Boot recovery (ota.py, OTA startup-cleanup method, lines 543-605) -/

/-- Restoration pass of boot recovery: fold over the backup entries in walk
order, moving each permitted entry onto its live path (removing any partial
live file first, which overwrite semantics subsume).  Entries that fail the
permission filter are skipped. -/
def restoreAll (allow ignore : List String) (backup live : FileMap) : FileMap :=
  backup.foldl
    (fun lv e => if isPermitted allow ignore e.1 then setF lv e.1 e.2 else lv)
    live

/-- Embedding of the private startup-cleanup method of class OTA (ota.py
lines 543-605): restore permitted backup entries over the live tree, then
destroy the backup directory (dropping entries that were not restored),
remove orphaned temporary files and empty the stage directory, and recreate
both directories empty. -/
def startupCleanup (allow ignore : List String) (fs : Fs) : Fs :=
  { live := restoreAll allow ignore fs.backup fs.live
    stage := []
    backup := []
    version := fs.version }

/-! ## Swap rollback (ota.py, OTA stage-and-swap method, lines 1326-1347)

The operation log of the source is a list of pairs (target, backup) of
optional paths: a new file is recorded as (target, none), a replaced file
as (target, backup path), a manifest deletion as (none, backup path). -/

/-- One rollback step over (live tree, backup tree), embedding the loop
body of the except-branch: if the entry has a backup path that exists,
remove the target if it has one and it exists, then rename the backup to
the target when a target is recorded, or to its own path (a no-op) when
not; entries without an existing backup are skipped entirely. -/
def rollbackStep (st : FileMap × FileMap) (e : Option String × Option String) :
    FileMap × FileMap :=
  match e.2 with
  | some b =>
      match findF st.2 b with
      | some c =>
          let live1 := match e.1 with
            | some t => if (findF st.1 t).isSome then delF st.1 t else st.1
            | none => st.1
          match e.1 with
          | some t => (setF live1 t c, delF st.2 b)
          | none => (live1, st.2)
      | none => st
  | none => st

/-- Rollback of the whole operation log, processed in reverse insertion
order, followed by the finally-block of the swap: the stage and the backup
directory are destroyed and recreated empty. -/
def stageAndSwapFail (applied : List (Option String × Option String))
    (fs : Fs) : Fs :=
  let st := applied.reverse.foldl rollbackStep (fs.live, fs.backup)
  { live := st.1, stage := [], backup := [], version := fs.version }

/-! ## Swap protocol (ota.py, OTA stage-and-swap method, lines 1232-1347)

The successful path of the swap is a totally ordered sequence of atomic
filesystem operations: for each permitted staged file in walk order, rename
any existing live file into the backup directory and rename the staged file
into place; for each permitted, existing manifest deletion, rename the live
file into the backup directory; write the installed-version record; then
clear the stage directory (already empty, every permitted staged file
having been renamed out) and remove the backup entries one by one.  The
conservative delete-patterns sweep is not modelled (the option defaults to
an empty list).  A crash is a prefix of this operation list, after which
boot recovery (startupCleanup) runs. -/

/-- One atomic filesystem operation of the swap. -/
inductive SwapOp where
  | backupLive (r : String)
  | promote (r : String)
  | writeVersion (v : String × String)
  | removeBackup (r : String)
  deriving DecidableEq, Repr

/-- Effect of one swap operation on the filesystem state.  backupLive
renames a live file into the backup directory; promote renames a staged
file into the live tree; writeVersion atomically replaces the
installed-version record (the source skips the write when the record is
already equal, which yields the same state); removeBackup deletes one
backup entry. -/
def execOp (fs : Fs) : SwapOp → Fs
  | .backupLive r =>
      match findF fs.live r with
      | some c =>
          { fs with live := delF fs.live r, backup := setF fs.backup r c }
      | none => fs
  | .promote r =>
      match findF fs.stage r with
      | some c =>
          { fs with stage := delF fs.stage r, live := setF fs.live r c }
      | none => fs
  | .writeVersion v => { fs with version := v }
  | .removeBackup r => { fs with backup := delF fs.backup r }

/-- Execution of a list of swap operations. -/
def execOps (fs : Fs) (ops : List SwapOp) : Fs := ops.foldl execOp fs

/-- Operations generated by the staged-file loop of the swap (ota.py lines
1239-1269): for each staged entry in walk order, skip it when not
permitted; otherwise back up the live file when one exists (liveHas probes
existence) and rename the staged file into place. -/
def stageOps (allow ignore : List String) (liveHas : String → Bool) :
    FileMap → List SwapOp
  | [] => []
  | e :: t =>
      (if isPermitted allow ignore e.1 then
        (if liveHas e.1 then [.backupLive e.1, .promote e.1]
         else [.promote e.1])
      else []) ++ stageOps allow ignore liveHas t

/-- Operations generated by the manifest-deletions loop of the swap (ota.py
lines 1271-1285): each permitted, existing path is renamed into the backup
directory. -/
def deleteOps (allow ignore : List String) (liveHas : String → Bool)
    (deletes : List String) : List SwapOp :=
  (deletes.filter (fun d => isPermitted allow ignore d && liveHas d)).map
    SwapOp.backupLive

/-- Operations of the final cleanup of a successful swap (ota.py lines
1343-1347): the backup directory, which holds exactly the replaced files
and the deleted files, is emptied entry by entry. -/
def postOps (allow ignore : List String) (liveHas : String → Bool)
    (stage0 : FileMap) (deletes : List String) : List SwapOp :=
  (stage0.filter (fun e => isPermitted allow ignore e.1 && liveHas e.1)).map
    (fun e => SwapOp.removeBackup e.1) ++
  (deletes.filter (fun d => isPermitted allow ignore d && liveHas d)).map
    SwapOp.removeBackup

/-- The full operation sequence of a successful swap: staged-file renames,
deletion backups, the installed-version record write, then backup
clearing.  The record write comes strictly after every file rename. -/
def swapOps (allow ignore : List String) (stage0 : FileMap)
    (deletes : List String) (liveHas : String → Bool)
    (vNew : String × String) : List SwapOp :=
  (stageOps allow ignore liveHas stage0 ++ deleteOps allow ignore liveHas deletes)
    ++ (SwapOp.writeVersion vNew :: postOps allow ignore liveHas stage0 deletes)

/-- Existence probe against the pre-swap live tree. -/
def liveHasOf (live0 : FileMap) : String → Bool :=
  fun r => (findF live0 r).isSome

/-- The live tree a completed swap is meant to produce at one path: deleted
paths are gone, staged paths carry their staged content, all others keep
their pre-swap content. -/
def newTreeAt (stage0 live0 : FileMap) (deletes : List String)
    (p : String) : Option Nat :=
  if p ∈ deletes then none
  else
    match findF stage0 p with
    | some c => some c
    | none => findF live0 p

/-- Which operations act on a given path (the record write acts on none). -/
def touches (p : String) : SwapOp → Bool
  | .backupLive r => r = p
  | .promote r => r = p
  | .removeBackup r => r = p
  | .writeVersion _ => false

/-- Projected effect of a swap operation on the (live, stage, backup)
contents of one path, for operations that touch that path. -/
def execP (st : Option Nat × Option Nat × Option Nat) :
    SwapOp → Option Nat × Option Nat × Option Nat
  | .backupLive _ =>
      match st.1 with
      | some c => (none, st.2.1, some c)
      | none => st
  | .promote _ =>
      match st.2.1 with
      | some c => (some c, none, st.2.2)
      | none => st
  | .removeBackup _ => (st.1, st.2.1, none)
  | .writeVersion _ => st

/-- Projection of a filesystem state to one path. -/
def projP (fs : Fs) (p : String) : Option Nat × Option Nat × Option Nat :=
  (findF fs.live p, findF fs.stage p, findF fs.backup p)

/-- Content of one path after boot recovery, as a function of its projected
state: the backup entry wins, otherwise the live entry stays. -/
def recoveredAt (st : Option Nat × Option Nat × Option Nat) : Option Nat :=
  match st.2.2 with
  | some c => some c
  | none => st.1

/-- Operation classifier for the version record. -/
def isWriteOp : SwapOp → Bool
  | .writeVersion _ => true
  | _ => false

/-- The pre-swap projection relation: a prefix relation on lists witnessed
by a completing tail. -/
def leadsTo {α : Type} (l₁ l₂ : List α) : Prop := ∃ t, l₁ ++ t = l₂

/-- Crash state: the filesystem after executing the first k operations of
the swap from the pre-swap state (live tree live0, fully staged stage0,
empty backup, installed version v0). -/
def crashFs (live0 stage0 : FileMap) (deletes : List String)
    (v0 vNew : String × String) (k : Nat) : Fs :=
  execOps ⟨live0, stage0, [], v0⟩
    ((swapOps [] [] stage0 deletes (liveHasOf live0) vNew).take k)

/-- State after boot recovery runs on the crash state. -/
def recoveredFs (live0 stage0 : FileMap) (deletes : List String)
    (v0 vNew : String × String) (k : Nat) : Fs :=
  startupCleanup [] [] (crashFs live0 stage0 deletes v0 vNew k)

/-- Number of file-rename operations preceding the record write. -/
def preLen (live0 stage0 : FileMap) (deletes : List String) : Nat :=
  (stageOps [] [] (liveHasOf live0) stage0).length +
  (deleteOps [] [] (liveHasOf live0) deletes).length

/-! ## Delta format (delta.py)

The delta applier is embedded over byte lists.  Each raise site of the
source maps to one error constructor.  Loops use explicit fuel (one unit
per instruction, so any fuel exceeding the remaining delta length
suffices); the wrappers pass such fuel.  The streaming reader's fixed
64-byte buffering is I/O-transparent and is embedded as direct list
consumption. -/

/-- Error raised by the delta module (DeltaError in the source);
constructors name the raise sites. -/
inductive DeltaErr where
  | tooShort
  | badMagic
  | badVersion
  | eofVarint
  | varintTooLarge
  | eofOpcode
  | copyTooLarge
  | insertTooLarge
  | truncated
  | eofOldFile
  | unknownOpcode
  | hashMismatch
  | fuel
  deriving DecidableEq, Repr

/-- The 8-byte delta magic OTADELTA. -/
def deltaMagic : List Nat := [79, 84, 65, 68, 69, 76, 84, 65]

/-- Streaming varint reader (delta.py, varint-from-reader helper): 7-bit
little-endian groups; EOF inside a varint raises; more than five groups
(shift beyond 28) raises. -/
def readVarintS (d : List Nat) (shift acc : Nat) :
    Except DeltaErr (Nat × List Nat) :=
  match d with
  | [] => .error .eofVarint
  | b :: rest =>
      let acc1 := acc ||| ((b &&& 127) <<< shift)
      if b &&& 128 == 0 then .ok (acc1, rest)
      else if 28 < shift + 7 then .error .varintTooLarge
      else readVarintS rest (shift + 7) acc1

/-- Legacy varint reader (delta.py, offset-based helper): same groups, but
EOF simply ends the loop, silently yielding the value accumulated so far,
and there is no size cap. -/
def readVarintL (d : List Nat) (shift acc : Nat) : Nat × List Nat :=
  match d with
  | [] => (acc, [])
  | b :: rest =>
      let acc1 := acc ||| ((b &&& 127) <<< shift)
      if b &&& 128 == 0 then (acc1, rest)
      else readVarintL rest (shift + 7) acc1

/-- Chunked copy from the old file, embedding the copy loops of both
appliers: read min(chunk, remaining) bytes at the current position and
fail when the read comes back short (EOF in the old file).  Fuel bounds
the iteration count; remaining acts as sufficient fuel whenever the chunk
size is positive (a zero chunk size makes the source loop forever, which
the fuel case models as an error). -/
def copyOldLoop (old : List Nat) (cs : Nat) :
    Nat → Nat → Nat → Except DeltaErr (List Nat)
  | 0, _, remaining => if remaining = 0 then .ok [] else .error .fuel
  | Nat.succ f, pos, remaining =>
      if remaining = 0 then .ok []
      else
        let chunk := min cs remaining
        let data := (old.drop pos).take chunk
        if data.length ≠ chunk then .error .eofOldFile
        else
          match copyOldLoop old cs f (pos + chunk) (remaining - chunk) with
          | .ok rest => .ok (data ++ rest)
          | .error e => .error e

/-- Copy of len bytes at offset from the old file. -/
def copyOld (old : List Nat) (offset len cs : Nat) :
    Except DeltaErr (List Nat) :=
  copyOldLoop old cs len offset len

/-- Streaming read of n literal bytes from the delta (read-bytes of the
chunked reader, consumed by the insert loop in chunks): EOF raises. -/
def readBytesS (d : List Nat) (n : Nat) :
    Except DeltaErr (List Nat × List Nat) :=
  if d.length < n then .error .truncated else .ok (d.take n, d.drop n)

/-- Instruction loop of the streaming applier (delta.py, apply-delta
streaming mode): EOF at an opcode raises; END stops, ignoring trailing
bytes; COPY reads two varints, enforces the 4096 cap, then copies from the
old file; INSERT reads one varint, enforces the 2048 cap, then streams the
literal bytes; other opcodes raise. -/
def applyStreamLoop (old : List Nat) (cs : Nat) :
    Nat → List Nat → List Nat → Except DeltaErr (List Nat)
  | 0, _, _ => .error .fuel
  | Nat.succ f, d, out =>
      match d with
      | [] => .error .eofOpcode
      | op :: rest =>
          if op == 255 then .ok out
          else if op == 1 then
            match readVarintS rest 0 0 with
            | .error e => .error e
            | .ok (coff, r1) =>
                match readVarintS r1 0 0 with
                | .error e => .error e
                | .ok (clen, r2) =>
                    if 4096 < clen then .error .copyTooLarge
                    else
                      match copyOld old coff clen cs with
                      | .error e => .error e
                      | .ok data => applyStreamLoop old cs f r2 (out ++ data)
          else if op == 2 then
            match readVarintS rest 0 0 with
            | .error e => .error e
            | .ok (ilen, r1) =>
                if 2048 < ilen then .error .insertTooLarge
                else
                  match readBytesS r1 ilen with
                  | .error e => .error e
                  | .ok (data, r2) => applyStreamLoop old cs f r2 (out ++ data)
          else .error .unknownOpcode

/-- Instruction loop of the legacy applier (delta.py, legacy bytes mode):
identical to the streaming loop except that running out of delta bytes at
an instruction boundary ends the loop successfully (the while condition
just stops), varints truncated by EOF read as the bits seen so far, and
INSERT data truncation is detected by an explicit length check. -/
def applyLegacyLoop (old : List Nat) (cs : Nat) :
    Nat → List Nat → List Nat → Except DeltaErr (List Nat)
  | 0, _, _ => .error .fuel
  | Nat.succ f, d, out =>
      match d with
      | [] => .ok out
      | op :: rest =>
          if op == 255 then .ok out
          else if op == 1 then
            let v1 := readVarintL rest 0 0
            let v2 := readVarintL v1.2 0 0
            if 4096 < v2.1 then .error .copyTooLarge
            else
              match copyOld old v1.1 v2.1 cs with
              | .error e => .error e
              | .ok data => applyLegacyLoop old cs f v2.2 (out ++ data)
          else if op == 2 then
            let v1 := readVarintL rest 0 0
            if 2048 < v1.1 then .error .insertTooLarge
            else if v1.2.length < v1.1 then .error .truncated
            else applyLegacyLoop old cs f (v1.2.drop v1.1) (out ++ v1.2.take v1.1)
          else .error .unknownOpcode

/-- Final hash step shared by both appliers: compute the SHA-256 hex of
the output; when a non-empty expected hash is supplied and differs, raise;
return the output and its hash. -/
def finishHash (out : List Nat) (expected : Option String) :
    Except DeltaErr (List Nat × String) :=
  let h := sha256Hex out
  match expected with
  | some e => if e ≠ "" ∧ h ≠ e then .error .hashMismatch else .ok (out, h)
  | none => .ok (out, h)

/-- Streaming mode of apply-delta (delta.py lines 220-328, path input):
read and check the 8-byte magic (EOF counts as truncation), read and check
the version byte (EOF reads as a missing version, rejected as
unsupported), run the instruction loop, then the hash step. -/
def applyDeltaStream (old delta : List Nat) (expected : Option String)
    (cs : Nat) : Except DeltaErr (List Nat × String) :=
  if delta.length < 8 then .error .truncated
  else if delta.take 8 ≠ deltaMagic then .error .badMagic
  else
    match delta.drop 8 with
    | [] => .error .badVersion
    | v :: body =>
        if v ≠ 1 then .error .badVersion
        else
          match applyStreamLoop old cs (body.length + 1) body [] with
          | .error e => .error e
          | .ok out => finishHash out expected

/-- Legacy mode of apply-delta (delta.py lines 125-217, bytes input):
inputs shorter than 9 bytes are rejected as too short, then magic and
version checks, the legacy instruction loop, and the hash step. -/
def applyDeltaLegacy (old delta : List Nat) (expected : Option String)
    (cs : Nat) : Except DeltaErr (List Nat × String) :=
  if delta.length < 9 then .error .tooShort
  else if delta.take 8 ≠ deltaMagic then .error .badMagic
  else
    match delta.drop 8 with
    | [] => .error .badVersion
    | v :: body =>
        if v ≠ 1 then .error .badVersion
        else
          match applyLegacyLoop old cs (body.length + 1) body [] with
          | .error e => .error e
          | .ok out => finishHash out expected

/-- A parsed delta instruction. -/
inductive DeltaInstr where
  | copy (offset len : Nat)
  | ins (data : List Nat)
  deriving DecidableEq, Repr

/-- Parse-only phase of the streaming applier: the same instruction
grammar and structural checks, with no old-file access and no hashing. -/
def parseStreamLoop : Nat → List Nat → Except DeltaErr (List DeltaInstr)
  | 0, _ => .error .fuel
  | Nat.succ f, d =>
      match d with
      | [] => .error .eofOpcode
      | op :: rest =>
          if op == 255 then .ok []
          else if op == 1 then
            match readVarintS rest 0 0 with
            | .error e => .error e
            | .ok (coff, r1) =>
                match readVarintS r1 0 0 with
                | .error e => .error e
                | .ok (clen, r2) =>
                    if 4096 < clen then .error .copyTooLarge
                    else
                      match parseStreamLoop f r2 with
                      | .ok is => .ok (.copy coff clen :: is)
                      | .error e => .error e
          else if op == 2 then
            match readVarintS rest 0 0 with
            | .error e => .error e
            | .ok (ilen, r1) =>
                if 2048 < ilen then .error .insertTooLarge
                else
                  match readBytesS r1 ilen with
                  | .error e => .error e
                  | .ok (data, r2) =>
                      match parseStreamLoop f r2 with
                      | .ok is => .ok (.ins data :: is)
                      | .error e => .error e
          else .error .unknownOpcode

/-- Parse-only phase of the legacy applier, with its quirks: EOF at an
instruction boundary parses as END, truncated varints read as the bits
seen, INSERT data truncation raises. -/
def parseLegacyLoop : Nat → List Nat → Except DeltaErr (List DeltaInstr)
  | 0, _ => .error .fuel
  | Nat.succ f, d =>
      match d with
      | [] => .ok []
      | op :: rest =>
          if op == 255 then .ok []
          else if op == 1 then
            let v1 := readVarintL rest 0 0
            let v2 := readVarintL v1.2 0 0
            if 4096 < v2.1 then .error .copyTooLarge
            else
              match parseLegacyLoop f v2.2 with
              | .ok is => .ok (.copy v1.1 v2.1 :: is)
              | .error e => .error e
          else if op == 2 then
            let v1 := readVarintL rest 0 0
            if 2048 < v1.1 then .error .insertTooLarge
            else if v1.2.length < v1.1 then .error .truncated
            else
              match parseLegacyLoop f (v1.2.drop v1.1) with
              | .ok is => .ok (.ins (v1.2.take v1.1) :: is)
              | .error e => .error e
          else .error .unknownOpcode

/-- Header checks plus the streaming parse phase. -/
def parseDeltaStream (delta : List Nat) : Except DeltaErr (List DeltaInstr) :=
  if delta.length < 8 then .error .truncated
  else if delta.take 8 ≠ deltaMagic then .error .badMagic
  else
    match delta.drop 8 with
    | [] => .error .badVersion
    | v :: body =>
        if v ≠ 1 then .error .badVersion
        else parseStreamLoop (body.length + 1) body

/-- Header checks plus the legacy parse phase. -/
def parseDeltaLegacy (delta : List Nat) : Except DeltaErr (List DeltaInstr) :=
  if delta.length < 9 then .error .tooShort
  else if delta.take 8 ≠ deltaMagic then .error .badMagic
  else
    match delta.drop 8 with
    | [] => .error .badVersion
    | v :: body =>
        if v ≠ 1 then .error .badVersion
        else parseLegacyLoop (body.length + 1) body

/-- Effect of one parsed instruction on the output: a COPY fails exactly
when it reads past the end of the old file. -/
def execInstr (old out : List Nat) : DeltaInstr → Except DeltaErr (List Nat)
  | .copy off len =>
      if len = 0 ∨ off + len ≤ old.length then
        .ok (out ++ (old.drop off).take len)
      else .error .eofOldFile
  | .ins data => .ok (out ++ data)

/-- Execution of a parsed instruction list. -/
def execInstrs (old : List Nat) : List DeltaInstr → List Nat →
    Except DeltaErr (List Nat)
  | [], out => .ok out
  | i :: is, out =>
      match execInstr old out i with
      | .ok out2 => execInstrs old is out2
      | .error e => .error e

/-- Hash acceptance condition of the final step. -/
def hashOkay (expected : Option String) (out : List Nat) : Prop :=
  match expected with
  | some e => e = "" ∨ sha256Hex out = e
  | none => True

/-! ## Delta creation (delta.py, create-delta, lines 331-429) -/

/-- Block key of the old-block hash table: first eight bytes of the
SHA-256 digest of the block. -/
def blockKey (block : List Nat) : List Nat := (sha256Bytes block).take 8

/-- Hash-table insertion with Python dict semantics: append the position
to an existing key's list, or add a new binding at the end. -/
def dictInsert (d : List (List Nat × List Nat)) (k : List Nat) (i : Nat) :
    List (List Nat × List Nat) :=
  if (List.lookup k d).isSome then
    d.map (fun e => if e.1 == k then (e.1, e.2 ++ [i]) else e)
  else d ++ [(k, [i])]

/-- Hash table of old-file blocks at positions 0, bs, 2 bs, ... (the
Python range over the old length with step bs; bs is positive). -/
def buildBlocks (old : List Nat) (bs : Nat) : List (List Nat × List Nat) :=
  (List.range' 0 ((old.length + bs - 1) / bs) bs).foldl
    (fun d i => dictInsert d (blockKey ((old.drop i).take bs)) i) []

/-- Match extension loop of create-delta: starting from the block size,
extend while both files continue to agree byte by byte. -/
def extendMatchLoop (old new : List Nat) (oldPos newPos : Nat) :
    Nat → Nat → Nat
  | 0, k => k
  | Nat.succ f, k =>
      if newPos + k < new.length ∧ oldPos + k < old.length ∧
          new.getD (newPos + k) 0 = old.getD (oldPos + k) 0 then
        extendMatchLoop old new oldPos newPos f (k + 1)
      else k

/-- Match length found at a pair of positions. -/
def extendMatch (old new : List Nat) (oldPos newPos bs : Nat) : Nat :=
  extendMatchLoop old new oldPos newPos new.length bs

/-- Varint writer of the delta generator. -/
def writeVarintLoop : Nat → Nat → List Nat
  | 0, v => [v &&& 127]
  | Nat.succ f, v =>
      if 127 < v then (v &&& 127 ||| 128) :: writeVarintLoop f (v >>> 7)
      else [v &&& 127]

/-- Varint encoding (the source loop halves the value at least sevenfold
per step, so the value itself is sufficient fuel). -/
def writeVarint (v : Nat) : List Nat := writeVarintLoop v v

/-- Flush of the pending literal bytes as one NEW-DATA instruction. -/
def flushIns (delta pending : List Nat) : List Nat :=
  if pending.isEmpty then delta
  else delta ++ [2] ++ writeVarint pending.length ++ pending

/-- Main loop of create-delta: at each position try a block match against
the old-block table; on a match, flush pending literals, emit a COPY of
the extended match, and jump ahead; otherwise accumulate one literal byte,
flushing whenever 2048 bytes are pending.  At the end flush and emit END.
Each iteration advances by at least one byte when the block size is
positive, so the new length plus one is sufficient fuel (the fuel case
mirrors normal termination and is unreachable then). -/
def createLoop (oldB : List (List Nat × List Nat)) (old new : List Nat)
    (bs : Nat) : Nat → Nat → List Nat → List Nat → List Nat
  | 0, _, delta, pending => flushIns delta pending ++ [255]
  | Nat.succ f, newPos, delta, pending =>
      if new.length ≤ newPos then flushIns delta pending ++ [255]
      else
        match
          (if newPos + bs ≤ new.length then
            match List.lookup (blockKey ((new.drop newPos).take bs)) oldB with
            | some (op :: _) => some op
            | _ => none
          else none) with
        | some oldPos =>
            let mlen := extendMatch old new oldPos newPos bs
            createLoop oldB old new bs f (newPos + mlen)
              (flushIns delta pending ++ [1] ++ writeVarint oldPos ++
                writeVarint mlen) []
        | none =>
            let pending2 := pending ++ [new.getD newPos 0]
            if 2048 ≤ pending2.length then
              createLoop oldB old new bs f (newPos + 1)
                (flushIns delta pending2) []
            else createLoop oldB old new bs f (newPos + 1) delta pending2

/-- Embedding of create-delta: header, instruction stream from the main
loop, END marker. -/
def createDelta (old new : List Nat) (bs : Nat) : List Nat :=
  createLoop (buildBlocks old bs) old new bs (new.length + 1) 0
    (deltaMagic ++ [1]) []

/-! ## Identity skip during staging (ota.py, stream-and-verify-git lines
1045-1073 and download-asset lines 1148-1155) -/

/-- Association lookup in a directory of files with byte contents. -/
def lookupB : List (String × List Nat) → String → Option (List Nat)
  | [], _ => none
  | e :: t, p => if e.1 = p then some e.2 else lookupB t p

/-- Decimal digits (ASCII) of a number; the value bounds the digit count,
so it serves as fuel. -/
def decDigits : Nat → Nat → List Nat
  | 0, n => [48 + n % 10]
  | Nat.succ f, n =>
      if n < 10 then [48 + n] else decDigits f (n / 10) ++ [48 + n % 10]

/-- ASCII decimal representation of a number. -/
def decRepr (n : Nat) : List Nat := decDigits n n

/-- Git blob identity of a file (git-blob-sha1-stream, ota.py lines
152-162): SHA-1 of the header blob-space-size-NUL followed by the
content. -/
def gitBlobSha1 (size : Nat) (content : List Nat) : String :=
  sha1Hex (strBytes "blob " ++ decRepr size ++ [0] ++ content)

/-- Skip decision of the download-asset method (ota.py lines 1148-1155):
when a non-empty expected SHA-256 is supplied and the destination (the
STAGED copy, dest is the stage path at the call site) exists with a
matching hash, the download is skipped.  stage is the directory of files
the destination path is resolved against. -/
def downloadAssetSkips (stage : List (String × List Nat)) (dest : String)
    (expectedSha : Option String) : Bool :=
  match expectedSha with
  | none => false
  | some e =>
      if e = "" then false
      else
        match lookupB stage dest with
        | none => false
        | some c => sha256Hex c == e

/-- Skip decision of the stream-and-verify-git method (ota.py lines
1051-1068): when the STAGE path of the entry exists, its git blob hash
(computed over the declared size, with a short or long file raising a size
mismatch that falls through to the download) matches the entry sha, the
download is skipped. -/
def streamGitSkips (stage : List (String × List Nat)) (stagePath : String)
    (size : Nat) (sha : String) : Bool :=
  match lookupB stage stagePath with
  | none => false
  | some c =>
      if c.length = size then gitBlobSha1 size c == sha else false

/-! ## Hidden-directory gate of the stable manifest loop (ota.py,
stable-with-manifest lines 1471-1484) -/

/-- Hidden-segment test of the manifest file loop: some slash segment
starts with a dot and is neither the stage nor the backup directory
name. -/
def hiddenSeg (rel : String) : Bool :=
  (segsOf rel).any (fun part => strStarts "." part &&
    !(part == ".ota_stage" || part == ".ota_backup"))

/-- Decision taken for one manifest file entry before its download
(ota.py lines 1471-1484): normalization errors propagate; a path failing
the allow/ignore filter is skipped (ok false); a permitted path with a
hidden segment raises; otherwise the file is downloaded (ok true). -/
def manifestFileStep (allow ignore : List String) (p : String) :
    Except OtaErr Bool :=
  match normalizePath p with
  | .error e => .error e
  | .ok rel =>
      if isPermitted allow ignore rel = false then .ok false
      else if hiddenSeg rel = true then .error .hiddenDirectory
      else .ok true

/-- The manifest file loop: process entries in order, recording the
downloaded paths, stopping at the first error. -/
def runManifestFiles (allow ignore : List String) :
    List String → List String → List String × Option OtaErr
  | [], acc => (acc.reverse, none)
  | p :: rest, acc =>
      match manifestFileStep allow ignore p with
      | .error e => (acc.reverse, some e)
      | .ok false => runManifestFiles allow ignore rest acc
      | .ok true => runManifestFiles allow ignore rest (p :: acc)

/-! ## Manifest signature verification (ota.py, verify-manifest-signature
lines 1412-1430 and the HMAC helper lines 97-110) -/

/-- Lexicographic byte-order comparison on character lists (the order of
the Python string sort used by sort-keys). -/
def strLeB : List Char → List Char → Bool
  | [], _ => true
  | _ :: _, [] => false
  | a :: as, b :: bs =>
      if a = b then strLeB as bs else decide (a.toNat < b.toNat)

/-- Scalar JSON values appearing in a manifest. -/
inductive JScal where
  | s (v : String)
  | n (v : Nat)
  | b (v : Bool)
  | null
  deriving DecidableEq, Repr

/-- Manifest values: scalars, arrays of scalars, flat objects, and arrays
of flat objects (the shapes used by the OTA manifests). -/
inductive JVal where
  | scal (v : JScal)
  | arr (vs : List JScal)
  | obj (fields : List (String × JScal))
  | arrObj (vs : List (List (String × JScal)))
  deriving DecidableEq, Repr

/-- Lowercase hex digit byte. -/
def hexLowB (n : Nat) : Nat := if n < 10 then 48 + n else 87 + n

/-- A backslash-u escape of a 16-bit code unit. -/
def uEsc (n : Nat) : List Nat :=
  [92, 117, hexLowB (n / 4096 % 16), hexLowB (n / 256 % 16),
    hexLowB (n / 16 % 16), hexLowB (n % 16)]

/-- JSON string escaping of one character, as the Python json.dumps
default (ensure-ascii): quote and backslash escaped, the five short
control escapes, other controls and all non-ASCII as backslash-u (with a
surrogate pair above the basic plane). -/
def escChar (c : Char) : List Nat :=
  let n := c.toNat
  if n = 34 then [92, 34]
  else if n = 92 then [92, 92]
  else if n = 8 then [92, 98]
  else if n = 9 then [92, 116]
  else if n = 10 then [92, 110]
  else if n = 12 then [92, 102]
  else if n = 13 then [92, 114]
  else if n < 32 then uEsc n
  else if n < 128 then [n]
  else if n < 65536 then uEsc n
  else uEsc (55296 + (n - 65536) / 1024) ++ uEsc (56320 + (n - 65536) % 1024)

/-- Serialized JSON string literal. -/
def serStr (str : String) : List Nat :=
  (34 :: (str.toList.map escChar).flatten) ++ [34]

/-- Serialized JSON scalar. -/
def serScal : JScal → List Nat
  | .s v => serStr v
  | .n v => decRepr v
  | .b true => strBytes "true"
  | .b false => strBytes "false"
  | .null => strBytes "null"

/-- Join byte chunks with a one-byte separator (the comma of the minimal
separators). -/
def joinBytes (sep : Nat) : List (List Nat) → List Nat
  | [] => []
  | [x] => x
  | x :: xs => x ++ sep :: joinBytes sep xs

/-- Key order on scalar fields. -/
def keyLeS (a b : String × JScal) : Prop :=
  strLeB a.1.toList b.1.toList = true

/-- Key order on manifest fields. -/
def keyLeV (a b : String × JVal) : Prop :=
  strLeB a.1.toList b.1.toList = true

instance : DecidableRel keyLeS := fun _ _ => instDecidableEqBool _ _

instance : DecidableRel keyLeV := fun _ _ => instDecidableEqBool _ _

/-- Serialized flat object: sort-keys plus minimal separators. -/
def serFlat (fields : List (String × JScal)) : List Nat :=
  (123 :: joinBytes 44 ((List.insertionSort keyLeS fields).map
    (fun e => serStr e.1 ++ 58 :: serScal e.2))) ++ [125]

/-- Serialized manifest value. -/
def serVal : JVal → List Nat
  | .scal v => serScal v
  | .arr vs => (91 :: joinBytes 44 (vs.map serScal)) ++ [93]
  | .obj fields => serFlat fields
  | .arrObj vs => (91 :: joinBytes 44 (vs.map serFlat)) ++ [93]

/-- Canonical serialization of the top-level manifest object (the Python
json.dumps with sort-keys true and separators comma and colon). -/
def serObj (m : List (String × JVal)) : List Nat :=
  (123 :: joinBytes 44 ((List.insertionSort keyLeV m).map
    (fun e => serStr e.1 ++ 58 :: serVal e.2))) ++ [125]

/-- Drop the signature field (the tmp.pop of the source). -/
def removeSig (m : List (String × JVal)) : List (String × JVal) :=
  m.filter (fun e => decide (e.1 ≠ "signature"))

/-- First binding of a key in the manifest object (Python dict get; keys
are unique in a parsed JSON object). -/
def jLookup (k : String) : List (String × JVal) → Option JVal
  | [] => none
  | e :: t => if e.1 = k then some e.2 else jLookup k t

/-- The signature value as a string, when it is one. -/
def sigValue : JVal → Option String
  | .scal (.s v) => some v
  | _ => none

/-- Embedding of verify-manifest-signature (ota.py lines 1412-1430): no
key (or an empty key, both falsy) accepts anything; a missing or falsy
signature fails; otherwise the signature is compared for equality (the
constant-time comparison computes string equality) with the HMAC-SHA-256
hex over the canonical serialization of the manifest minus its signature
field.  A signature field holding a truthy non-string makes the source
raise a TypeError inside the comparison; the embedding folds that into
the missing-signature rejection. -/
def verifyManifest (key : Option String) (m : List (String × JVal)) :
    Except OtaErr Unit :=
  match key with
  | none => .ok ()
  | some k =>
      if k = "" then .ok ()
      else
        match jLookup "signature" m with
        | none => .error .missingSignature
        | some v =>
            match sigValue v with
            | none => .error .missingSignature
            | some sig =>
                if sig = "" then .error .missingSignature
                else if hmacSha256Hex (strBytes k) (serObj (removeSig m))
                    = sig then .ok ()
                else .error .signatureMismatch

/-! ## Theorems -/

example : sha256Hex [] =
    "e3b0c44298fc1c149afbf4c8996fb92427ae41e4649b934ca495991b7852b855" := by
  decide

example : sha256Hex [97, 98, 99] =
    "ba7816bf8f01cfea414140de5dae2223b00361a396177a9cb410ff61f20015ad" := by
  decide

example : sha1Hex [97, 98, 99] =
    "a9993e364706816aba3e25717850c26c9cd0d89d" := by
  decide

example : hmacSha256Hex (strBytes ("k")) (strBytes ("hello")) =
    "406e4b43f87095aa86ca6299d25e875921fefa180f02043bb29bec5681c0c2d0" := by
  decide

theorem isPermitted_nil (p : String) : isPermitted [] [] p = true := by
  simp [isPermitted, memStr]

@[simp] theorem isOk_error_eq {e : Type} {a : Type} (x : e) :
    (Except.error x : Except e a).isOk = false := rfl

@[simp] theorem isOk_ok_eq {e : Type} {a : Type} (x : a) :
    (Except.ok x : Except e a).isOk = true := rfl

theorem findF_delF (m : FileMap) (p q : String) :
    findF (delF m p) q = if q = p then none else findF m q := by
  induction m with
  | nil => simp [delF, findF]
  | cons e t ih =>
      by_cases hep : e.1 = p
      · have hd : delF (e :: t) p = delF t p := by simp [delF, hep]
        rw [hd, ih]
        by_cases hqp : q = p
        · simp [hqp]
        · have hne : ¬ e.1 = q := by
            intro h
            exact hqp (h ▸ hep)
          simp [hqp, findF, hne]
      · have hd : delF (e :: t) p = e :: delF t p := by simp [delF, hep]
        rw [hd]
        simp only [findF]
        by_cases heq : e.1 = q
        · have hqp : ¬ q = p := fun hq => hep (heq.trans hq)
          simp [heq, hqp]
        · simp [heq, ih]

theorem findF_setF (m : FileMap) (p q : String) (c : Nat) :
    findF (setF m p c) q = if q = p then some c else findF m q := by
  by_cases h : q = p
  · simp [setF, findF, h]
  · have hp : ¬ p = q := fun he => h he.symm
    simp [setF, findF, hp, findF_delF, h]

theorem findF_none_of_not_mem (m : FileMap) (p : String)
    (h : p ∉ keysF m) : findF m p = none := by
  induction m with
  | nil => simp [findF]
  | cons e t ih =>
      simp only [keysF, List.map, List.mem_cons] at h
      push_neg at h
      have : ¬ e.1 = p := fun he => h.1 he.symm
      simp only [findF, this, if_false]
      exact ih (by simpa [keysF] using h.2)

theorem restoreAll_find (allow ignore : List String) (backup : FileMap) :
    ∀ (live : FileMap) (p : String),
      (keysF backup).Nodup →
      findF (restoreAll allow ignore backup live) p =
        match findF backup p with
        | some c => if isPermitted allow ignore p then some c else findF live p
        | none => findF live p := by
  induction backup with
  | nil => intro live p _; simp [restoreAll, findF]
  | cons e t ih =>
      intro live p hnd
      simp only [keysF, List.map, List.nodup_cons] at hnd
      obtain ⟨hni, hnd⟩ := hnd
      have hnd2 : (keysF t).Nodup := by simpa [keysF] using hnd
      simp only [restoreAll, List.foldl] at *
      by_cases hpe : p = e.1
      · have htf : findF t p = none :=
          findF_none_of_not_mem t p (by rw [hpe]; simpa [keysF] using hni)
        rw [ih _ p hnd2, htf]
        have hfind : findF (e :: t) p = some e.2 := by
          simp [findF, hpe.symm]
        rw [hfind]
        by_cases hperm : isPermitted allow ignore e.1 = true
        · have hpp : isPermitted allow ignore p = true := by
            rw [hpe]; exact hperm
          simp [hperm, hpp, findF_setF, hpe]
        · simp only [Bool.not_eq_true] at hperm
          have hpp : isPermitted allow ignore p = false := by
            rw [hpe]; exact hperm
          simp [hperm, hpp]
      · rw [ih _ p hnd2]
        have hep : ¬ e.1 = p := fun h => hpe h.symm
        have hfind : findF (e :: t) p = findF t p := by simp [findF, hep]
        rw [hfind]
        by_cases hperm : isPermitted allow ignore e.1 = true
        · simp only [hperm, if_true]
          have hs : findF (setF live e.1 e.2) p = findF live p := by
            rw [findF_setF]; simp [hpe]
          cases hft : findF t p <;> simp [hs]
        · simp only [Bool.not_eq_true] at hperm
          simp [hperm]

/-- Claim C5 (corrected).  After boot recovery both the stage and the
backup directory are empty, and every backup entry whose path passes the
allow/ignore filter is restored to its live path with its backed-up content
(overwriting any partial live file).  The original claim, which promised
restoration of every backup entry unconditionally, fails: entries rejected
by the filter are skipped by the restore loop and then destroyed together
with the backup directory (see the counterexample). -/
theorem claimC5_startup_cleanup (allow ignore : List String) (fs : Fs)
    (hnd : (keysF fs.backup).Nodup) :
    (startupCleanup allow ignore fs).stage = [] ∧
    (startupCleanup allow ignore fs).backup = [] ∧
    ∀ p c, findF fs.backup p = some c → isPermitted allow ignore p = true →
      findF (startupCleanup allow ignore fs).live p = some c := by
  refine ⟨rfl, rfl, ?_⟩
  intro p c hb hperm
  simp only [startupCleanup]
  rw [restoreAll_find allow ignore fs.backup fs.live p hnd, hb, hperm]
  simp

/-- Witness for claim C5: a concrete permitted backup entry is restored. -/
theorem claimC5_witness :
    findF (startupCleanup [] [] ⟨[], [], [("a", 7)], ("v0", "c0")⟩).live "a" =
      some 7 :=
  (claimC5_startup_cleanup [] [] ⟨[], [], [("a", 7)], ("v0", "c0")⟩
    (by decide)).2.2 "a" 7 (by decide) (by decide)

/-- Counterexample for claim C5 as stated: with an ignore filter configured
for path a, a backup entry for a is not restored (it is silently destroyed
when the backup directory is emptied), although the claim promises that
every backup entry is restored to its live path. -/
theorem claimC5_counterexample :
    findF (startupCleanup [] ["a"] ⟨[], [], [("a", 7)], ("v0", "c0")⟩).live "a" =
      none ∧
    (startupCleanup [] ["a"] ⟨[], [], [("a", 7)], ("v0", "c0")⟩).backup = [] := by
  refine ⟨by decide, ?_⟩
  rfl

/-- Claim C2 (code bug), behaviour of rollback at the failing input.  The
log holds a new entry for path a (recorded as (a, none)) and a delete entry
for path b (recorded as (none, backup path of b)); the live tree holds the
newly placed a, the backup holds the backed-up b.  Rollback leaves the new
file a in place (the loop skips entries whose backup is none, so the claim
that a new entry's file is deleted fails), and does not restore b (the
rename targets the backup path itself, a no-op, after which the backup
directory is destroyed, losing the file).  The claim is right and the code
is wrong: the repository's own rollback test suite documents this
two-tuple log as the buggy shape and asserts that new files are removed
and deleted files restored. -/
theorem claimC2_rollback_bug :
    findF (stageAndSwapFail [(some "a", none), (none, some ".ota_backup/b")]
        ⟨[("a", 10)], [], [(".ota_backup/b", 20)], ("v0", "c0")⟩).live
        "a" = some 10 ∧
    findF (stageAndSwapFail [(some "a", none), (none, some ".ota_backup/b")]
        ⟨[("a", 10)], [], [(".ota_backup/b", 20)], ("v0", "c0")⟩).live
        "b" = none ∧
    (stageAndSwapFail [(some "a", none), (none, some ".ota_backup/b")]
        ⟨[("a", 10)], [], [(".ota_backup/b", 20)], ("v0", "c0")⟩).backup
        = [] := by
  refine ⟨by decide, by decide, rfl⟩

/-- Claim C8 (confirmed).  Path normalization fails exactly when the path
starts with a slash or one of its slash-separated segments is empty, a dot
or a dot-dot; on success it returns the slash-joined segment list. -/
theorem claimC8_normalize (rel : String) :
    ((normalizePath rel).isOk = false ↔
      headIsSlash rel = true ∨
      ∃ p ∈ segsOf rel, p ∈ badSegs) ∧
    (∀ r, normalizePath rel = .ok r → r = joinWith slash (segsOf rel)) := by
  constructor
  · unfold normalizePath
    by_cases h1 : headIsSlash rel = true
    · simp [h1, Except.isOk, Except.toBool, isOk_error_eq, isOk_ok_eq]
    · simp only [h1, if_false, Bool.false_eq_true, false_or]
      by_cases h2 : (segsOf rel).any (fun p => memStr badSegs p) = true
      · simp only [h2, if_true]
        simp only [List.any_eq_true, memStr, decide_eq_true_eq] at h2
        obtain ⟨p, hp, q, hq, hqp⟩ := h2
        subst hqp
        simp only [Except.isOk, Except.toBool, isOk_error_eq, isOk_ok_eq]
        exact ⟨fun _ => ⟨q, hp, hq⟩, fun _ => trivial⟩
      · simp only [h2, if_false]
        simp only [List.any_eq_true, memStr, decide_eq_true_eq] at h2
        push_neg at h2
        simp only [Except.isOk, Except.toBool, isOk_error_eq, isOk_ok_eq]
        constructor
        · intro h; cases h
        · intro h
          obtain ⟨p, hp, hmem⟩ := h
          exact absurd rfl (h2 p hp p hmem)
  · intro r hr
    unfold normalizePath at hr
    by_cases h1 : headIsSlash rel = true
    · simp [h1] at hr
    · simp only [h1, Bool.false_eq_true, if_false] at hr
      by_cases h2 : (segsOf rel).any (fun p => memStr badSegs p) = true
      · simp [h2] at hr
      · simp only [h2, Bool.false_eq_true, if_false, Except.ok.injEq] at hr
        exact hr.symm

/-- Witness for claim C8: a concrete valid path is returned in joined form,
and a concrete traversal path is rejected. -/
theorem claimC8_witness :
    "a/b" = joinWith slash (segsOf "a/b") ∧
    ((normalizePath "../evil").isOk = false) :=
  ⟨(claimC8_normalize "a/b").2 "a/b" (by decide),
   ((claimC8_normalize "../evil").1).mpr (by decide)⟩

/-- Claim C9 (confirmed).  With the minimum-free-storage option at its
default value of zero, a plan whose candidates are all valid and require N
total bytes passes validation when free space is exactly 2 N, and fails
validation when free space is 2 N - 1 (for N positive). -/
theorem claimC9_storage_gate (allow ignore : List String)
    (cands : List Candidate)
    (hok : ∀ e ∈ cands, (normalizePath e.path).isOk = true ∧
      isPermitted allow ignore e.path = true) :
    validateUpdatePlan allow ignore
        (some (2 * (cands.map (fun e => e.size)).sum)) 0 cands = true ∧
    (0 < (cands.map (fun e => e.size)).sum →
      validateUpdatePlan allow ignore
        (some (2 * (cands.map (fun e => e.size)).sum - 1)) 0 cands = false) := by
  have hany : cands.any (fun e =>
      !(normalizePath e.path).isOk || !(isPermitted allow ignore e.path))
      = false := by
    simp only [List.any_eq_false]
    intro e he
    obtain ⟨h1, h2⟩ := hok e he
    simp [h1, h2]
  constructor
  · unfold validateUpdatePlan
    by_cases hc : cands.isEmpty
    · simp [hc]
    · simp only [hc, if_false, hany, Bool.false_eq_true]
      simp only [checkStorage, Nat.max_zero]
      have : ¬ (2 * (cands.map (fun e => e.size)).sum <
          (cands.map (fun e => e.size)).sum * 2) := by omega
      simp [this]
  · intro hpos
    unfold validateUpdatePlan
    have hc : cands.isEmpty = false := by
      cases cands with
      | nil => simp at hpos
      | cons e t => simp
    simp only [hc, Bool.false_eq_true, if_false, hany]
    simp only [checkStorage, Nat.max_zero]
    have : 2 * (cands.map (fun e => e.size)).sum - 1 <
        (cands.map (fun e => e.size)).sum * 2 := by omega
    simp [this]

theorem projP_execOp_not_touches (fs : Fs) (op : SwapOp) (p : String)
    (h : touches p op = false) : projP (execOp fs op) p = projP fs p := by
  cases op with
  | backupLive r =>
      simp only [touches, decide_eq_false_iff_not] at h
      cases hl : findF fs.live r with
      | none => simp [execOp, hl]
      | some c =>
          simp only [execOp, hl, projP]
          rw [findF_delF, findF_setF]
          have hpr : ¬ p = r := fun hp => h hp.symm
          simp [hpr]
  | promote r =>
      simp only [touches, decide_eq_false_iff_not] at h
      cases hl : findF fs.stage r with
      | none => simp [execOp, hl]
      | some c =>
          simp only [execOp, hl, projP]
          rw [findF_delF, findF_setF]
          have hpr : ¬ p = r := fun hp => h hp.symm
          simp [hpr]
  | removeBackup r =>
      simp only [touches, decide_eq_false_iff_not] at h
      simp only [execOp, projP]
      rw [findF_delF]
      have hpr : ¬ p = r := fun hp => h hp.symm
      simp [hpr]
  | writeVersion v => simp [execOp, projP]

theorem projP_execOp_touches (fs : Fs) (op : SwapOp) (p : String)
    (h : touches p op = true) : projP (execOp fs op) p = execP (projP fs p) op := by
  cases op with
  | backupLive r =>
      have hr : r = p := of_decide_eq_true h
      subst hr
      cases hl : findF fs.live r with
      | none => simp [execOp, hl, execP, projP]
      | some c =>
          simp [execOp, hl, execP, projP, findF_delF, findF_setF]
  | promote r =>
      have hr : r = p := of_decide_eq_true h
      subst hr
      cases hl : findF fs.stage r with
      | none => simp [execOp, hl, execP, projP]
      | some c =>
          simp [execOp, hl, execP, projP, findF_delF, findF_setF]
  | removeBackup r =>
      have hr : r = p := of_decide_eq_true h
      subst hr
      simp [execOp, execP, projP, findF_delF]
  | writeVersion v => simp [touches] at h

theorem projP_execOps (ops : List SwapOp) : ∀ (fs : Fs) (p : String),
    projP (execOps fs ops) p =
      (ops.filter (touches p)).foldl execP (projP fs p) := by
  induction ops with
  | nil => intro fs p; rfl
  | cons op t ih =>
      intro fs p
      by_cases h : touches p op = true
      · rw [List.filter_cons_of_pos h]
        show projP (execOps (execOp fs op) t) p = _
        rw [ih (execOp fs op) p]
        simp only [List.foldl_cons]
        rw [projP_execOp_touches fs op p h]
      · have hf : touches p op = false := by
          simpa using h
        rw [List.filter_cons_of_neg (by simp [hf])]
        show projP (execOps (execOp fs op) t) p = _
        rw [ih (execOp fs op) p, projP_execOp_not_touches fs op p hf]

theorem version_execOp_not_write (fs : Fs) (op : SwapOp)
    (h : isWriteOp op = false) : (execOp fs op).version = fs.version := by
  cases op with
  | backupLive r => cases hl : findF fs.live r <;> simp [execOp, hl]
  | promote r => cases hl : findF fs.stage r <;> simp [execOp, hl]
  | removeBackup r => simp [execOp]
  | writeVersion v => simp [isWriteOp] at h

theorem version_execOps_not_write (ops : List SwapOp) : ∀ (fs : Fs),
    (∀ op ∈ ops, isWriteOp op = false) →
    (execOps fs ops).version = fs.version := by
  induction ops with
  | nil => intro fs _; rfl
  | cons op t ih =>
      intro fs h
      show (execOps (execOp fs op) t).version = fs.version
      rw [ih (execOp fs op) (fun o ho => h o (List.mem_cons_of_mem _ ho))]
      exact version_execOp_not_write fs op (h op (List.mem_cons_self op t))

theorem stageOps_mem (allow ignore : List String)
    (liveHas : String → Bool) (st0 : FileMap) :
    ∀ op ∈ stageOps allow ignore liveHas st0,
      ∃ r, op = SwapOp.backupLive r ∨ op = SwapOp.promote r := by
  induction st0 with
  | nil => simp [stageOps]
  | cons e t ih =>
      intro op hop
      simp only [stageOps, List.mem_append] at hop
      rcases hop with h | h
      · refine ⟨e.1, ?_⟩
        by_cases hperm : isPermitted allow ignore e.1 = true
        · simp only [hperm, if_true] at h
          by_cases hl : liveHas e.1 = true
          · simp only [hl, if_true] at h
            rcases List.mem_cons.mp h with rfl | h2
            · exact Or.inl rfl
            · rcases List.mem_singleton.mp h2 with rfl
              exact Or.inr rfl
          · simp only [Bool.not_eq_true] at hl
            simp only [hl, Bool.false_eq_true, if_false] at h
            rcases List.mem_singleton.mp h with rfl
            exact Or.inr rfl
        · simp only [Bool.not_eq_true] at hperm
          simp [hperm] at h
      · exact ih op h

theorem stageOps_not_write (allow ignore : List String)
    (liveHas : String → Bool) (st0 : FileMap) :
    ∀ op ∈ stageOps allow ignore liveHas st0, isWriteOp op = false := by
  intro op hop
  rcases stageOps_mem allow ignore liveHas st0 op hop with ⟨r, rfl | rfl⟩ <;> rfl

theorem deleteOps_not_write (allow ignore : List String)
    (liveHas : String → Bool) (deletes : List String) :
    ∀ op ∈ deleteOps allow ignore liveHas deletes, isWriteOp op = false := by
  intro op hop
  simp only [deleteOps, List.mem_map] at hop
  rcases hop with ⟨d, _, rfl⟩
  rfl

theorem postOps_not_write (allow ignore : List String)
    (liveHas : String → Bool) (stage0 : FileMap) (deletes : List String) :
    ∀ op ∈ postOps allow ignore liveHas stage0 deletes,
      isWriteOp op = false := by
  intro op hop
  simp only [postOps, List.mem_append, List.mem_map] at hop
  rcases hop with ⟨e, _, rfl⟩ | ⟨d, _, rfl⟩ <;> rfl

theorem mem_keysF_delF (m : FileMap) (p x : String) :
    x ∈ keysF (delF m p) → x ∈ keysF m ∧ x ≠ p := by
  induction m with
  | nil => simp [delF, keysF]
  | cons e t ih =>
      by_cases hep : e.1 = p
      · have hd : delF (e :: t) p = delF t p := by simp [delF, hep]
        rw [hd]
        intro hx
        rcases ih hx with ⟨h1, h2⟩
        exact ⟨by simp [keysF]; right; simpa [keysF] using h1, h2⟩
      · have hd : delF (e :: t) p = e :: delF t p := by simp [delF, hep]
        rw [hd]
        intro hx
        simp only [keysF, List.map, List.mem_cons] at hx
        rcases hx with rfl | hx
        · exact ⟨by simp [keysF], hep⟩
        · rcases ih (by simpa [keysF] using hx) with ⟨h1, h2⟩
          exact ⟨by simp [keysF]; right; simpa [keysF] using h1, h2⟩

theorem nodup_keysF_delF (m : FileMap) (p : String)
    (h : (keysF m).Nodup) : (keysF (delF m p)).Nodup := by
  induction m with
  | nil => simp [delF, keysF]
  | cons e t ih =>
      simp only [keysF, List.map, List.nodup_cons] at h
      obtain ⟨hni, hnd⟩ := h
      have hnd2 : (keysF t).Nodup := by simpa [keysF] using hnd
      by_cases hep : e.1 = p
      · have hd : delF (e :: t) p = delF t p := by simp [delF, hep]
        rw [hd]
        exact ih hnd2
      · have hd : delF (e :: t) p = e :: delF t p := by simp [delF, hep]
        rw [hd]
        simp only [keysF, List.map, List.nodup_cons]
        constructor
        · intro hx
          rcases mem_keysF_delF t p e.1 (by simpa [keysF] using hx) with ⟨h1, _⟩
          exact hni (by simpa [keysF] using h1)
        · simpa [keysF] using ih hnd2

theorem nodup_keysF_setF (m : FileMap) (p : String) (c : Nat)
    (h : (keysF m).Nodup) : (keysF (setF m p c)).Nodup := by
  simp only [setF, keysF, List.map, List.nodup_cons]
  constructor
  · intro hx
    rcases mem_keysF_delF m p p (by simpa [keysF] using hx) with ⟨_, h2⟩
    exact h2 rfl
  · simpa [keysF] using nodup_keysF_delF m p h

theorem backup_nodup_execOp (fs : Fs) (op : SwapOp)
    (h : (keysF fs.backup).Nodup) : (keysF (execOp fs op).backup).Nodup := by
  cases op with
  | backupLive r =>
      cases hl : findF fs.live r with
      | none => simpa [execOp, hl]
      | some c =>
          simp only [execOp, hl]
          exact nodup_keysF_setF fs.backup r c h
  | promote r =>
      cases hl : findF fs.stage r with
      | none => simpa [execOp, hl]
      | some c => simpa [execOp, hl]
  | removeBackup r =>
      simp only [execOp]
      exact nodup_keysF_delF fs.backup r h
  | writeVersion v => simpa [execOp]

theorem backup_nodup_execOps (ops : List SwapOp) : ∀ (fs : Fs),
    (keysF fs.backup).Nodup → (keysF (execOps fs ops).backup).Nodup := by
  induction ops with
  | nil => intro fs h; exact h
  | cons op t ih =>
      intro fs h
      exact ih (execOp fs op) (backup_nodup_execOp fs op h)

theorem startupCleanup_live_nil (fs : Fs)
    (h : (keysF fs.backup).Nodup) (p : String) :
    findF (startupCleanup [] [] fs).live p =
      recoveredAt (projP fs p) := by
  simp only [startupCleanup, recoveredAt, projP]
  rw [restoreAll_find [] [] fs.backup fs.live p h]
  cases findF fs.backup p <;> simp [isPermitted_nil]

theorem leadsTo_filter_take {α : Type} (q : α → Bool) (l : List α) (k : Nat) :
    leadsTo ((l.take k).filter q) (l.filter q) :=
  ⟨(l.drop k).filter q, by rw [← List.filter_append, List.take_append_drop]⟩

theorem leadsTo_nil_right {α : Type} (l : List α) (h : leadsTo l []) :
    l = [] := by
  obtain ⟨t, ht⟩ := h
  exact (List.append_eq_nil.mp ht).1

theorem leadsTo_single {α : Type} (l : List α) (a : α) (h : leadsTo l [a]) :
    l = [] ∨ l = [a] := by
  obtain ⟨t, ht⟩ := h
  cases l with
  | nil => exact Or.inl rfl
  | cons x xs =>
      simp only [List.cons_append, List.cons.injEq] at ht
      obtain ⟨rfl, ht2⟩ := ht
      right
      rcases List.append_eq_nil.mp ht2 with ⟨rfl, _⟩
      rfl

theorem leadsTo_pair {α : Type} (l : List α) (a b : α)
    (h : leadsTo l [a, b]) : l = [] ∨ l = [a] ∨ l = [a, b] := by
  obtain ⟨t, ht⟩ := h
  cases l with
  | nil => exact Or.inl rfl
  | cons x xs =>
      simp only [List.cons_append, List.cons.injEq] at ht
      obtain ⟨rfl, ht2⟩ := ht
      rcases leadsTo_single xs b ⟨t, ht2⟩ with rfl | rfl
      · exact Or.inr (Or.inl rfl)
      · exact Or.inr (Or.inr rfl)

theorem not_mem_keysF_of_findF_none (m : FileMap) (p : String)
    (h : findF m p = none) : p ∉ keysF m := by
  induction m with
  | nil => simp [keysF]
  | cons e t ih =>
      by_cases hep : e.1 = p
      · simp [findF, hep] at h
      · have h2 : findF t p = none := by simpa [findF, hep] using h
        simp only [keysF, List.map, List.mem_cons]
        push_neg
        exact ⟨fun he => hep he.symm, by simpa [keysF] using ih h2⟩

theorem mem_keysF_of_findF_some (m : FileMap) (p : String) (c : Nat)
    (h : findF m p = some c) : p ∈ keysF m := by
  by_contra hmem
  rw [findF_none_of_not_mem m p hmem] at h
  cases h

theorem stageOps_filter_none (liveHas : String → Bool) (st0 : FileMap)
    (p : String) (h : findF st0 p = none) :
    (stageOps [] [] liveHas st0).filter (touches p) = [] := by
  induction st0 with
  | nil => rfl
  | cons e t ih =>
      have h2 : findF t p = none ∧ ¬ e.1 = p := by
        by_cases hc : e.1 = p
        · exfalso; simp [findF, hc] at h
        · exact ⟨by simpa [findF, hc] using h, hc⟩
      simp only [stageOps, List.filter_append]
      rw [ih h2.1]
      suffices hblock : (if isPermitted [] [] e.1 = true then
          (if liveHas e.1 = true then
            [SwapOp.backupLive e.1, SwapOp.promote e.1]
          else [SwapOp.promote e.1]) else []).filter (touches p) = [] by
        rw [hblock]
        rfl
      by_cases hl : liveHas e.1 = true <;>
        simp [isPermitted_nil, hl, touches, h2.2]

theorem stageOps_filter_some (liveHas : String → Bool) (st0 : FileMap)
    (p : String) (c : Nat) (hnd : (keysF st0).Nodup)
    (h : findF st0 p = some c) :
    (stageOps [] [] liveHas st0).filter (touches p) =
      if liveHas p = true then [SwapOp.backupLive p, SwapOp.promote p]
      else [SwapOp.promote p] := by
  induction st0 with
  | nil => simp [findF] at h
  | cons e t ih =>
      obtain ⟨hni, hnd2⟩ :=
        List.nodup_cons.mp (show (e.1 :: keysF t).Nodup from hnd)
      by_cases hep : e.1 = p
      · have htn : findF t p = none := by
          apply findF_none_of_not_mem
          rw [← hep]
          exact hni
        simp only [stageOps, List.filter_append]
        rw [stageOps_filter_none liveHas t p htn, hep]
        by_cases hl : liveHas p = true <;>
          simp [isPermitted_nil, hl, touches]
      · have h2 : findF t p = some c := by simpa [findF, hep] using h
        simp only [stageOps, List.filter_append]
        rw [ih hnd2 h2]
        suffices hblock : (if isPermitted [] [] e.1 = true then
            (if liveHas e.1 = true then
              [SwapOp.backupLive e.1, SwapOp.promote e.1]
            else [SwapOp.promote e.1]) else []).filter (touches p) = [] by
          rw [hblock]
          simp
        by_cases hl : liveHas e.1 = true <;>
          simp [isPermitted_nil, hl, touches, hep]

theorem mapStrOp_filter_not_mem (p : String) (f : String → SwapOp)
    (hf : ∀ r, touches p (f r) = decide (r = p)) :
    ∀ (l : List String) (g : String → Bool), p ∉ l →
      ((l.filter g).map f).filter (touches p) = [] := by
  intro l
  induction l with
  | nil => intro g _; rfl
  | cons d t ih =>
      intro g hmem
      simp only [List.mem_cons] at hmem
      push_neg at hmem
      by_cases hg : g d = true
      · rw [List.filter_cons_of_pos hg]
        simp only [List.map]
        rw [List.filter_cons_of_neg
          (by rw [hf d]; simp; exact fun he => hmem.1 he.symm)]
        exact ih g hmem.2
      · rw [List.filter_cons_of_neg (by simp [hg])]
        exact ih g hmem.2

theorem mapStrOp_filter (p : String) (f : String → SwapOp)
    (hf : ∀ r, touches p (f r) = decide (r = p)) :
    ∀ (l : List String) (g : String → Bool), l.Nodup →
      ((l.filter g).map f).filter (touches p) =
        if p ∈ l ∧ g p = true then [f p] else [] := by
  intro l
  induction l with
  | nil => intro g _; simp
  | cons d t ih =>
      intro g hnd
      obtain ⟨hni, hnd2⟩ := List.nodup_cons.mp hnd
      by_cases hdp : d = p
      · subst hdp
        by_cases hg : g d = true
        · rw [List.filter_cons_of_pos hg]
          simp only [List.map]
          rw [List.filter_cons_of_pos (by rw [hf d]; simp)]
          rw [mapStrOp_filter_not_mem d f hf t g hni]
          simp [hg]
        · rw [List.filter_cons_of_neg (by simp [hg])]
          rw [mapStrOp_filter_not_mem d f hf t g hni]
          have hgf : g d = false := by simpa using hg
          simp [hgf]
      · have hmem : (p ∈ d :: t ∧ g p = true) ↔ (p ∈ t ∧ g p = true) := by
          simp only [List.mem_cons]
          constructor
          · rintro ⟨hp | hp, hgp⟩
            · exact absurd hp.symm hdp
            · exact ⟨hp, hgp⟩
          · rintro ⟨hp, hgp⟩
            exact ⟨Or.inr hp, hgp⟩
        by_cases hg : g d = true
        · rw [List.filter_cons_of_pos hg]
          simp only [List.map]
          rw [List.filter_cons_of_neg (by rw [hf d]; simp [hdp])]
          rw [ih g hnd2]
          by_cases hm : p ∈ t ∧ g p = true
          · rw [if_pos hm, if_pos (hmem.mpr hm)]
          · rw [if_neg hm, if_neg (fun hc => hm (hmem.mp hc))]
        · rw [List.filter_cons_of_neg (by simp [hg])]
          rw [ih g hnd2]
          by_cases hm : p ∈ t ∧ g p = true
          · rw [if_pos hm, if_pos (hmem.mpr hm)]
          · rw [if_neg hm, if_neg (fun hc => hm (hmem.mp hc))]

theorem mapEntryOp_filter_not_mem (p : String) (f : String → SwapOp)
    (hf : ∀ r, touches p (f r) = decide (r = p)) :
    ∀ (m : FileMap) (q : String → Bool), p ∉ keysF m →
      ((m.filter (fun e => q e.1)).map (fun e => f e.1)).filter (touches p)
        = [] := by
  intro m
  induction m with
  | nil => intro q _; rfl
  | cons e t ih =>
      intro q hmem
      have hmem2 : p ≠ e.1 ∧ p ∉ keysF t := by
        have hm : p ∉ e.1 :: keysF t := hmem
        simp only [List.mem_cons] at hm
        push_neg at hm
        exact hm
      have hne : ¬ e.1 = p := fun he => hmem2.1 he.symm
      by_cases hg : q e.1 = true
      · have hstep : List.filter (fun x => q x.1) (e :: t) =
            e :: List.filter (fun x => q x.1) t := by
          simp [List.filter_cons, hg]
        rw [hstep]
        simp only [List.map]
        have hstep2 : List.filter (touches p)
            (f e.1 :: (List.filter (fun x => q x.1) t).map (fun x => f x.1)) =
            List.filter (touches p)
              ((List.filter (fun x => q x.1) t).map (fun x => f x.1)) := by
          simp [List.filter_cons, hf e.1, hne]
        rw [hstep2]
        exact ih q hmem2.2
      · have hstep : List.filter (fun x => q x.1) (e :: t) =
            List.filter (fun x => q x.1) t := by
          simp [List.filter_cons, hg]
        rw [hstep]
        exact ih q hmem2.2

theorem mapEntryOp_filter (p : String) (f : String → SwapOp)
    (hf : ∀ r, touches p (f r) = decide (r = p)) :
    ∀ (m : FileMap) (q : String → Bool), (keysF m).Nodup →
      ((m.filter (fun e => q e.1)).map (fun e => f e.1)).filter (touches p) =
        if p ∈ keysF m ∧ q p = true then [f p] else [] := by
  intro m
  induction m with
  | nil => intro q _; simp [keysF]
  | cons e t ih =>
      intro q hnd
      obtain ⟨hni, hnd2⟩ :=
        List.nodup_cons.mp (show (e.1 :: keysF t).Nodup from hnd)
      have hkeys : keysF (e :: t) = e.1 :: keysF t := rfl
      by_cases hdp : e.1 = p
      · by_cases hg : q e.1 = true
        · have hstep : List.filter (fun x => q x.1) (e :: t) =
              e :: List.filter (fun x => q x.1) t := by
            simp [List.filter_cons, hg]
          rw [hstep]
          simp only [List.map]
          have hstep2 : List.filter (touches p)
              (f e.1 :: (List.filter (fun x => q x.1) t).map (fun x => f x.1)) =
              f e.1 :: List.filter (touches p)
                ((List.filter (fun x => q x.1) t).map (fun x => f x.1)) := by
            simp [List.filter_cons, hdp, hf p]
          rw [hstep2]
          rw [mapEntryOp_filter_not_mem p f hf t q (by rw [← hdp]; exact hni)]
          rw [hdp] at hg
          have hcond : p ∈ keysF (e :: t) ∧ q p = true := by
            rw [hkeys, hdp]
            exact ⟨List.mem_cons_self p (keysF t), hg⟩
          rw [if_pos hcond, hdp]
        · have hstep : List.filter (fun x => q x.1) (e :: t) =
              List.filter (fun x => q x.1) t := by
            simp [List.filter_cons, hg]
          rw [hstep]
          rw [mapEntryOp_filter_not_mem p f hf t q (by rw [← hdp]; exact hni)]
          rw [hdp] at hg
          have hcond : ¬ (p ∈ keysF (e :: t) ∧ q p = true) := fun hc => hg hc.2
          rw [if_neg hcond]
      · have hmem : (p ∈ keysF (e :: t) ∧ q p = true) ↔
            (p ∈ keysF t ∧ q p = true) := by
          rw [hkeys]
          simp only [List.mem_cons]
          constructor
          · rintro ⟨hp | hp, hgp⟩
            · exact absurd hp.symm hdp
            · exact ⟨hp, hgp⟩
          · rintro ⟨hp, hgp⟩
            exact ⟨Or.inr hp, hgp⟩
        have htail := ih q hnd2
        by_cases hg : q e.1 = true
        · have hstep : List.filter (fun x => q x.1) (e :: t) =
              e :: List.filter (fun x => q x.1) t := by
            simp [List.filter_cons, hg]
          rw [hstep]
          simp only [List.map]
          have hstep2 : List.filter (touches p)
              (f e.1 :: (List.filter (fun x => q x.1) t).map (fun x => f x.1)) =
              List.filter (touches p)
                ((List.filter (fun x => q x.1) t).map (fun x => f x.1)) := by
            simp [List.filter_cons, hf e.1, hdp]
          rw [hstep2, htail]
          by_cases hm : p ∈ keysF t ∧ q p = true
          · rw [if_pos hm, if_pos (hmem.mpr hm)]
          · rw [if_neg hm, if_neg (fun hc => hm (hmem.mp hc))]
        · have hstep : List.filter (fun x => q x.1) (e :: t) =
              List.filter (fun x => q x.1) t := by
            simp [List.filter_cons, hg]
          rw [hstep, htail]
          by_cases hm : p ∈ keysF t ∧ q p = true
          · rw [if_pos hm, if_pos (hmem.mpr hm)]
          · rw [if_neg hm, if_neg (fun hc => hm (hmem.mp hc))]

theorem crashFs_version_le (live0 stage0 : FileMap) (deletes : List String)
    (v0 vNew : String × String) (k : Nat)
    (hk : k ≤ preLen live0 stage0 deletes) :
    (crashFs live0 stage0 deletes v0 vNew k).version = v0 := by
  unfold crashFs swapOps
  rw [List.take_append_of_le_length (by simpa [preLen, List.length_append] using hk)]
  apply version_execOps_not_write
  intro op hop
  rcases List.mem_append.mp (List.mem_of_mem_take hop) with h | h
  · exact stageOps_not_write _ _ _ _ op h
  · exact deleteOps_not_write _ _ _ _ op h

theorem crashFs_version_gt (live0 stage0 : FileMap) (deletes : List String)
    (v0 vNew : String × String) (k : Nat)
    (hk : preLen live0 stage0 deletes < k) :
    (crashFs live0 stage0 deletes v0 vNew k).version = vNew := by
  unfold crashFs swapOps
  rw [List.take_append_eq_append_take]
  rw [List.take_of_length_le
    (by simp only [preLen, List.length_append] at hk
        simpa using Nat.le_of_lt hk)]
  obtain ⟨n, hn⟩ : ∃ n,
      k - (stageOps [] [] (liveHasOf live0) stage0 ++
        deleteOps [] [] (liveHasOf live0) deletes).length = n + 1 := by
    refine ⟨k - (stageOps [] [] (liveHasOf live0) stage0 ++
      deleteOps [] [] (liveHasOf live0) deletes).length - 1, ?_⟩
    simp only [preLen, List.length_append] at hk
    simp only [List.length_append]
    omega
  rw [hn, List.take_succ_cons]
  have hsplit : execOps (⟨live0, stage0, [], v0⟩ : Fs)
      ((stageOps [] [] (liveHasOf live0) stage0 ++
        deleteOps [] [] (liveHasOf live0) deletes) ++
        (SwapOp.writeVersion vNew ::
          (postOps [] [] (liveHasOf live0) stage0 deletes).take n)) =
      execOps (execOps ⟨live0, stage0, [], v0⟩
          (stageOps [] [] (liveHasOf live0) stage0 ++
            deleteOps [] [] (liveHasOf live0) deletes))
        (SwapOp.writeVersion vNew ::
          (postOps [] [] (liveHasOf live0) stage0 deletes).take n) := by
    unfold execOps
    exact List.foldl_append _ _ _ _
  rw [hsplit]
  show (execOps (execOp (execOps ⟨live0, stage0, [], v0⟩
      (stageOps [] [] (liveHasOf live0) stage0 ++
        deleteOps [] [] (liveHasOf live0) deletes)) (SwapOp.writeVersion vNew))
      ((postOps [] [] (liveHasOf live0) stage0 deletes).take n)).version = vNew
  rw [version_execOps_not_write _ _
    (fun op hop => postOps_not_write _ _ _ _ _ op (List.mem_of_mem_take hop))]
  rfl

theorem crashFs_exec_split (live0 stage0 : FileMap) (deletes : List String)
    (v0 vNew : String × String) (k : Nat) :
    crashFs live0 stage0 deletes v0 vNew k =
      execOps ⟨live0, stage0, [], v0⟩
        ((swapOps [] [] stage0 deletes (liveHasOf live0) vNew).take k) := rfl

theorem recoveredFs_live (live0 stage0 : FileMap) (deletes : List String)
    (v0 vNew : String × String) (k : Nat) (p : String) :
    findF (recoveredFs live0 stage0 deletes v0 vNew k).live p =
      recoveredAt
        ((((swapOps [] [] stage0 deletes (liveHasOf live0) vNew).take k).filter
          (touches p)).foldl execP (findF live0 p, findF stage0 p, none)) := by
  unfold recoveredFs crashFs
  rw [startupCleanup_live_nil _
    (backup_nodup_execOps _ ⟨live0, stage0, [], v0⟩ (by simp [keysF]))]
  rw [projP_execOps]
  rfl

theorem branch1_path (live0 stage0 : FileMap) (deletes : List String)
    (vNew : String × String) (k : Nat)
    (hndS : (keysF stage0).Nodup) (hndD : deletes.Nodup)
    (hdisj : ∀ d ∈ deletes, findF stage0 d = none)
    (hk : k ≤ preLen live0 stage0 deletes) (p : String) :
    recoveredAt
        ((((swapOps [] [] stage0 deletes (liveHasOf live0) vNew).take k).filter
          (touches p)).foldl execP (findF live0 p, findF stage0 p, none)) =
      findF live0 p ∨
    (findF live0 p = none ∧
      recoveredAt
        ((((swapOps [] [] stage0 deletes (liveHasOf live0) vNew).take k).filter
          (touches p)).foldl execP (findF live0 p, findF stage0 p, none)) =
        findF stage0 p ∧
      findF stage0 p ≠ none) := by
  have htake : (swapOps [] [] stage0 deletes (liveHasOf live0) vNew).take k =
      (stageOps [] [] (liveHasOf live0) stage0 ++
        deleteOps [] [] (liveHasOf live0) deletes).take k := by
    unfold swapOps
    exact List.take_append_of_le_length
      (by simpa [preLen, List.length_append] using hk)
  rw [htake]
  have hlead := leadsTo_filter_take (touches p)
    (stageOps [] [] (liveHasOf live0) stage0 ++
      deleteOps [] [] (liveHasOf live0) deletes) k
  rw [List.filter_append] at hlead
  cases hsf : findF stage0 p with
  | some c =>
      have hpd : p ∉ deletes := fun hin => by simp [hdisj p hin] at hsf
      have hAf := stageOps_filter_some (liveHasOf live0) stage0 p c hndS hsf
      have hBf : (deleteOps [] [] (liveHasOf live0) deletes).filter
          (touches p) = [] := by
        unfold deleteOps
        rw [mapStrOp_filter p SwapOp.backupLive (fun r => rfl) deletes _ hndD]
        simp [hpd]
      cases hlf : findF live0 p with
      | some co =>
          have hlh : liveHasOf live0 p = true := by simp [liveHasOf, hlf]
          rw [hAf, hBf] at hlead
          simp only [hlh, if_true, List.append_nil] at hlead
          rcases leadsTo_pair _ _ _ hlead with hfp | hfp | hfp <;>
            (rw [hfp]; left; rfl)
      | none =>
          have hlh : liveHasOf live0 p = false := by simp [liveHasOf, hlf]
          rw [hAf, hBf] at hlead
          simp only [hlh, Bool.false_eq_true, if_false, List.append_nil]
            at hlead
          rcases leadsTo_single _ _ hlead with hfp | hfp
          · rw [hfp]; left; rfl
          · rw [hfp]; right
            refine ⟨rfl, ?_, ?_⟩
            · rfl
            · simp
  | none =>
      have hAf := stageOps_filter_none (liveHasOf live0) stage0 p hsf
      rw [hAf, List.nil_append] at hlead
      by_cases hpd : p ∈ deletes
      · cases hlf : findF live0 p with
        | some co =>
            have hBf : (deleteOps [] [] (liveHasOf live0) deletes).filter
                (touches p) = [SwapOp.backupLive p] := by
              unfold deleteOps
              rw [mapStrOp_filter p SwapOp.backupLive (fun r => rfl) deletes
                _ hndD]
              simp [hpd, isPermitted_nil, liveHasOf, hlf]
            rw [hBf] at hlead
            rcases leadsTo_single _ _ hlead with hfp | hfp <;>
              (rw [hfp]; left; rfl)
        | none =>
            have hBf : (deleteOps [] [] (liveHasOf live0) deletes).filter
                (touches p) = [] := by
              unfold deleteOps
              rw [mapStrOp_filter p SwapOp.backupLive (fun r => rfl) deletes
                _ hndD]
              simp [liveHasOf, hlf]
            rw [hBf] at hlead
            rw [leadsTo_nil_right _ hlead]
            left; rfl
      · have hBf : (deleteOps [] [] (liveHasOf live0) deletes).filter
            (touches p) = [] := by
          unfold deleteOps
          rw [mapStrOp_filter p SwapOp.backupLive (fun r => rfl) deletes
            _ hndD]
          simp [hpd]
        rw [hBf] at hlead
        rw [leadsTo_nil_right _ hlead]
        left; rfl

theorem postOps_filter_stage_part (live0 stage0 : FileMap) (p : String)
    (hndS : (keysF stage0).Nodup) :
    ((stage0.filter (fun e =>
        isPermitted [] [] e.1 && liveHasOf live0 e.1)).map
      (fun e => SwapOp.removeBackup e.1)).filter (touches p) =
      if p ∈ keysF stage0 ∧
          (isPermitted [] [] p && liveHasOf live0 p) = true then
        [SwapOp.removeBackup p] else [] :=
  mapEntryOp_filter p SwapOp.removeBackup (fun _ => rfl) stage0
    (fun r => isPermitted [] [] r && liveHasOf live0 r) hndS

theorem branch2_fp (live0 stage0 : FileMap) (deletes : List String)
    (vNew : String × String) (k : Nat)
    (hk : preLen live0 stage0 deletes < k) (p : String) :
    ∃ gp, ((swapOps [] [] stage0 deletes (liveHasOf live0) vNew).take k).filter
        (touches p) =
      ((stageOps [] [] (liveHasOf live0) stage0).filter (touches p) ++
        (deleteOps [] [] (liveHasOf live0) deletes).filter (touches p)) ++ gp ∧
      leadsTo gp
        ((postOps [] [] (liveHasOf live0) stage0 deletes).filter (touches p)) := by
  obtain ⟨n, hn⟩ : ∃ n,
      k - (stageOps [] [] (liveHasOf live0) stage0 ++
        deleteOps [] [] (liveHasOf live0) deletes).length = n + 1 := by
    refine ⟨k - (stageOps [] [] (liveHasOf live0) stage0 ++
      deleteOps [] [] (liveHasOf live0) deletes).length - 1, ?_⟩
    simp only [preLen, List.length_append] at hk
    simp only [List.length_append]
    omega
  refine ⟨((postOps [] [] (liveHasOf live0) stage0 deletes).take n).filter
    (touches p), ?_, leadsTo_filter_take _ _ _⟩
  unfold swapOps
  rw [List.take_append_eq_append_take]
  rw [List.take_of_length_le
    (by simp only [preLen, List.length_append] at hk
        simpa using Nat.le_of_lt hk)]
  rw [hn, List.take_succ_cons]
  rw [List.filter_append, List.filter_append]
  rw [List.filter_cons_of_neg (by simp [touches])]

theorem branch2_path (live0 stage0 : FileMap) (deletes : List String)
    (vNew : String × String) (k : Nat)
    (hndS : (keysF stage0).Nodup) (hndD : deletes.Nodup)
    (hdisj : ∀ d ∈ deletes, findF stage0 d = none)
    (hk : preLen live0 stage0 deletes < k) (p : String) :
    recoveredAt
        ((((swapOps [] [] stage0 deletes (liveHasOf live0) vNew).take k).filter
          (touches p)).foldl execP (findF live0 p, findF stage0 p, none)) =
      newTreeAt stage0 live0 deletes p ∨
    recoveredAt
        ((((swapOps [] [] stage0 deletes (liveHasOf live0) vNew).take k).filter
          (touches p)).foldl execP (findF live0 p, findF stage0 p, none)) =
      findF live0 p := by
  obtain ⟨gp, hfp, hgp⟩ :=
    branch2_fp live0 stage0 deletes vNew k hk p
  rw [hfp]
  have hCf : List.filter (touches p)
      (((stage0.filter (fun e =>
          isPermitted [] [] e.1 && liveHasOf live0 e.1)).map
        (fun e => SwapOp.removeBackup e.1)) ++
        ((deletes.filter (fun d =>
          isPermitted [] [] d && liveHasOf live0 d)).map SwapOp.removeBackup)) =
      List.filter (touches p)
        ((stage0.filter (fun e =>
          isPermitted [] [] e.1 && liveHasOf live0 e.1)).map
          (fun e => SwapOp.removeBackup e.1)) ++
      List.filter (touches p)
        ((deletes.filter (fun d =>
          isPermitted [] [] d && liveHasOf live0 d)).map SwapOp.removeBackup) :=
    List.filter_append _ _
  cases hsf : findF stage0 p with
  | some c =>
      have hpd : p ∉ deletes := fun hin => by simp [hdisj p hin] at hsf
      have hAf := stageOps_filter_some (liveHasOf live0) stage0 p c hndS hsf
      have hBf : (deleteOps [] [] (liveHasOf live0) deletes).filter
          (touches p) = [] := by
        unfold deleteOps
        rw [mapStrOp_filter p SwapOp.backupLive (fun r => rfl) deletes _ hndD]
        simp [hpd]
      have hE2 : ((deletes.filter (fun d =>
          isPermitted [] [] d && liveHasOf live0 d)).map
            SwapOp.removeBackup).filter (touches p) = [] := by
        rw [mapStrOp_filter p SwapOp.removeBackup (fun r => rfl) deletes
          _ hndD]
        simp [hpd]
      cases hlf : findF live0 p with
      | some co =>
          have hlh : liveHasOf live0 p = true := by simp [liveHasOf, hlf]
          have hE1 := postOps_filter_stage_part live0 stage0 p hndS
          have hE1c : ((stage0.filter (fun e =>
              isPermitted [] [] e.1 && liveHasOf live0 e.1)).map
              (fun e => SwapOp.removeBackup e.1)).filter (touches p) =
              [SwapOp.removeBackup p] := by
            rw [hE1]
            simp [mem_keysF_of_findF_some stage0 p c hsf, isPermitted_nil, hlh]
          have hCfv : (postOps [] [] (liveHasOf live0) stage0 deletes).filter
              (touches p) = [SwapOp.removeBackup p] := by
            unfold postOps
            rw [hCf, hE1c, hE2]
            rfl
          rw [hCfv] at hgp
          rw [hAf, hBf]
          simp only [hlh, if_true, List.append_nil]
          rcases leadsTo_single _ _ hgp with hg | hg
          · rw [hg]; right; rfl
          · rw [hg]; left
            have hnt : newTreeAt stage0 live0 deletes p = some c := by
              simp [newTreeAt, hpd, hsf]
            rw [hnt]; rfl
      | none =>
          have hlh : liveHasOf live0 p = false := by simp [liveHasOf, hlf]
          have hE1 := postOps_filter_stage_part live0 stage0 p hndS
          have hE1c : ((stage0.filter (fun e =>
              isPermitted [] [] e.1 && liveHasOf live0 e.1)).map
              (fun e => SwapOp.removeBackup e.1)).filter (touches p) = [] := by
            rw [hE1]
            simp [hlh]
          have hCfv : (postOps [] [] (liveHasOf live0) stage0 deletes).filter
              (touches p) = [] := by
            unfold postOps
            rw [hCf, hE1c, hE2]
            rfl
          rw [hCfv] at hgp
          rw [leadsTo_nil_right _ hgp, hAf, hBf]
          simp only [hlh, Bool.false_eq_true, if_false, List.append_nil]
          left
          have hnt : newTreeAt stage0 live0 deletes p = some c := by
            simp [newTreeAt, hpd, hsf]
          rw [hnt]; rfl
  | none =>
      have hAf := stageOps_filter_none (liveHasOf live0) stage0 p hsf
      have hE1 := postOps_filter_stage_part live0 stage0 p hndS
      have hE1c : ((stage0.filter (fun e =>
          isPermitted [] [] e.1 && liveHasOf live0 e.1)).map
          (fun e => SwapOp.removeBackup e.1)).filter (touches p) = [] := by
        rw [hE1]
        simp [not_mem_keysF_of_findF_none stage0 p hsf]
      by_cases hpd : p ∈ deletes
      · cases hlf : findF live0 p with
        | some co =>
            have hlh : liveHasOf live0 p = true := by simp [liveHasOf, hlf]
            have hBf : (deleteOps [] [] (liveHasOf live0) deletes).filter
                (touches p) = [SwapOp.backupLive p] := by
              unfold deleteOps
              rw [mapStrOp_filter p SwapOp.backupLive (fun r => rfl) deletes
                _ hndD]
              simp [hpd, isPermitted_nil, hlh]
            have hE2 : ((deletes.filter (fun d =>
                isPermitted [] [] d && liveHasOf live0 d)).map
                  SwapOp.removeBackup).filter (touches p) =
                [SwapOp.removeBackup p] := by
              rw [mapStrOp_filter p SwapOp.removeBackup (fun r => rfl) deletes
                _ hndD]
              simp [hpd, isPermitted_nil, hlh]
            have hCfv : (postOps [] [] (liveHasOf live0) stage0 deletes).filter
                (touches p) = [SwapOp.removeBackup p] := by
              unfold postOps
              rw [hCf, hE1c, hE2]
              rfl
            rw [hCfv] at hgp
            rw [hAf, hBf, List.nil_append]
            rcases leadsTo_single _ _ hgp with hg | hg
            · rw [hg]; right; rfl
            · rw [hg]; left
              have hnt : newTreeAt stage0 live0 deletes p = none := by
                simp [newTreeAt, hpd]
              rw [hnt]; rfl
        | none =>
            have hlh : liveHasOf live0 p = false := by simp [liveHasOf, hlf]
            have hBf : (deleteOps [] [] (liveHasOf live0) deletes).filter
                (touches p) = [] := by
              unfold deleteOps
              rw [mapStrOp_filter p SwapOp.backupLive (fun r => rfl) deletes
                _ hndD]
              simp [hlh]
            have hE2 : ((deletes.filter (fun d =>
                isPermitted [] [] d && liveHasOf live0 d)).map
                  SwapOp.removeBackup).filter (touches p) = [] := by
              rw [mapStrOp_filter p SwapOp.removeBackup (fun r => rfl) deletes
                _ hndD]
              simp [hlh]
            have hCfv : (postOps [] [] (liveHasOf live0) stage0 deletes).filter
                (touches p) = [] := by
              unfold postOps
              rw [hCf, hE1c, hE2]
              rfl
            rw [hCfv] at hgp
            rw [leadsTo_nil_right _ hgp, hAf, hBf, List.nil_append,
              List.nil_append]
            left
            have hnt : newTreeAt stage0 live0 deletes p = none := by
              simp [newTreeAt, hpd]
            rw [hnt]; rfl
      · have hBf : (deleteOps [] [] (liveHasOf live0) deletes).filter
            (touches p) = [] := by
          unfold deleteOps
          rw [mapStrOp_filter p SwapOp.backupLive (fun r => rfl) deletes
            _ hndD]
          simp [hpd]
        have hE2 : ((deletes.filter (fun d =>
            isPermitted [] [] d && liveHasOf live0 d)).map
              SwapOp.removeBackup).filter (touches p) = [] := by
          rw [mapStrOp_filter p SwapOp.removeBackup (fun r => rfl) deletes
            _ hndD]
          simp [hpd]
        have hCfv : (postOps [] [] (liveHasOf live0) stage0 deletes).filter
            (touches p) = [] := by
          unfold postOps
          rw [hCf, hE1c, hE2]
          rfl
        rw [hCfv] at hgp
        rw [leadsTo_nil_right _ hgp, hAf, hBf, List.nil_append,
          List.nil_append]
        right
        rfl

theorem branch3_path (live0 stage0 : FileMap) (deletes : List String)
    (vNew : String × String) (k : Nat)
    (hndS : (keysF stage0).Nodup) (hndD : deletes.Nodup)
    (hdisj : ∀ d ∈ deletes, findF stage0 d = none)
    (hk : (swapOps [] [] stage0 deletes (liveHasOf live0) vNew).length ≤ k)
    (p : String) :
    recoveredAt
        ((((swapOps [] [] stage0 deletes (liveHasOf live0) vNew).take k).filter
          (touches p)).foldl execP (findF live0 p, findF stage0 p, none)) =
      newTreeAt stage0 live0 deletes p := by
  rw [List.take_of_length_le hk]
  unfold swapOps
  rw [List.filter_append, List.filter_cons_of_neg (by simp [touches])]
  have hCf : List.filter (touches p)
      (((stage0.filter (fun e =>
          isPermitted [] [] e.1 && liveHasOf live0 e.1)).map
        (fun e => SwapOp.removeBackup e.1)) ++
        ((deletes.filter (fun d =>
          isPermitted [] [] d && liveHasOf live0 d)).map SwapOp.removeBackup)) =
      List.filter (touches p)
        ((stage0.filter (fun e =>
          isPermitted [] [] e.1 && liveHasOf live0 e.1)).map
          (fun e => SwapOp.removeBackup e.1)) ++
      List.filter (touches p)
        ((deletes.filter (fun d =>
          isPermitted [] [] d && liveHasOf live0 d)).map SwapOp.removeBackup) :=
    List.filter_append _ _
  rw [List.filter_append]
  cases hsf : findF stage0 p with
  | some c =>
      have hpd : p ∉ deletes := fun hin => by simp [hdisj p hin] at hsf
      have hAf := stageOps_filter_some (liveHasOf live0) stage0 p c hndS hsf
      have hBf : (deleteOps [] [] (liveHasOf live0) deletes).filter
          (touches p) = [] := by
        unfold deleteOps
        rw [mapStrOp_filter p SwapOp.backupLive (fun r => rfl) deletes _ hndD]
        simp [hpd]
      have hE2 : ((deletes.filter (fun d =>
          isPermitted [] [] d && liveHasOf live0 d)).map
            SwapOp.removeBackup).filter (touches p) = [] := by
        rw [mapStrOp_filter p SwapOp.removeBackup (fun r => rfl) deletes
          _ hndD]
        simp [hpd]
      have hnt : newTreeAt stage0 live0 deletes p = some c := by
        simp [newTreeAt, hpd, hsf]
      cases hlf : findF live0 p with
      | some co =>
          have hlh : liveHasOf live0 p = true := by simp [liveHasOf, hlf]
          have hE1c : ((stage0.filter (fun e =>
              isPermitted [] [] e.1 && liveHasOf live0 e.1)).map
              (fun e => SwapOp.removeBackup e.1)).filter (touches p) =
              [SwapOp.removeBackup p] := by
            rw [postOps_filter_stage_part live0 stage0 p hndS]
            simp [mem_keysF_of_findF_some stage0 p c hsf, isPermitted_nil, hlh]
          unfold postOps
          rw [hCf, hE1c, hE2, hAf, hBf]
          simp only [hlh, if_true, List.append_nil, List.nil_append]
          rw [hnt]; rfl
      | none =>
          have hlh : liveHasOf live0 p = false := by simp [liveHasOf, hlf]
          have hE1c : ((stage0.filter (fun e =>
              isPermitted [] [] e.1 && liveHasOf live0 e.1)).map
              (fun e => SwapOp.removeBackup e.1)).filter (touches p) = [] := by
            rw [postOps_filter_stage_part live0 stage0 p hndS]
            simp [hlh]
          unfold postOps
          rw [hCf, hE1c, hE2, hAf, hBf]
          simp only [hlh, Bool.false_eq_true, if_false, List.append_nil,
            List.nil_append]
          rw [hnt]; rfl
  | none =>
      have hAf := stageOps_filter_none (liveHasOf live0) stage0 p hsf
      have hE1c : ((stage0.filter (fun e =>
          isPermitted [] [] e.1 && liveHasOf live0 e.1)).map
          (fun e => SwapOp.removeBackup e.1)).filter (touches p) = [] := by
        rw [postOps_filter_stage_part live0 stage0 p hndS]
        simp [not_mem_keysF_of_findF_none stage0 p hsf]
      by_cases hpd : p ∈ deletes
      · have hnt : newTreeAt stage0 live0 deletes p = none := by
          simp [newTreeAt, hpd]
        cases hlf : findF live0 p with
        | some co =>
            have hlh : liveHasOf live0 p = true := by simp [liveHasOf, hlf]
            have hBf : (deleteOps [] [] (liveHasOf live0) deletes).filter
                (touches p) = [SwapOp.backupLive p] := by
              unfold deleteOps
              rw [mapStrOp_filter p SwapOp.backupLive (fun r => rfl) deletes
                _ hndD]
              simp [hpd, isPermitted_nil, hlh]
            have hE2 : ((deletes.filter (fun d =>
                isPermitted [] [] d && liveHasOf live0 d)).map
                  SwapOp.removeBackup).filter (touches p) =
                [SwapOp.removeBackup p] := by
              rw [mapStrOp_filter p SwapOp.removeBackup (fun r => rfl) deletes
                _ hndD]
              simp [hpd, isPermitted_nil, hlh]
            unfold postOps
            rw [hCf, hE1c, hE2, hAf, hBf]
            rw [hnt]; rfl
        | none =>
            have hlh : liveHasOf live0 p = false := by simp [liveHasOf, hlf]
            have hBf : (deleteOps [] [] (liveHasOf live0) deletes).filter
                (touches p) = [] := by
              unfold deleteOps
              rw [mapStrOp_filter p SwapOp.backupLive (fun r => rfl) deletes
                _ hndD]
              simp [hlh]
            have hE2 : ((deletes.filter (fun d =>
                isPermitted [] [] d && liveHasOf live0 d)).map
                  SwapOp.removeBackup).filter (touches p) = [] := by
              rw [mapStrOp_filter p SwapOp.removeBackup (fun r => rfl) deletes
                _ hndD]
              simp [hlh]
            unfold postOps
            rw [hCf, hE1c, hE2, hAf, hBf]
            rw [hnt]; rfl
      · have hnt : newTreeAt stage0 live0 deletes p = findF live0 p := by
          simp [newTreeAt, hpd, hsf]
        have hBf : (deleteOps [] [] (liveHasOf live0) deletes).filter
            (touches p) = [] := by
          unfold deleteOps
          rw [mapStrOp_filter p SwapOp.backupLive (fun r => rfl) deletes
            _ hndD]
          simp [hpd]
        have hE2 : ((deletes.filter (fun d =>
            isPermitted [] [] d && liveHasOf live0 d)).map
              SwapOp.removeBackup).filter (touches p) = [] := by
          rw [mapStrOp_filter p SwapOp.removeBackup (fun r => rfl) deletes
            _ hndD]
          simp [hpd]
        unfold postOps
        rw [hCf, hE1c, hE2, hAf, hBf]
        rw [hnt]; rfl

/-- Claim C1 (corrected).  For any prefix of the swap's filesystem
operations executed before a simulated fault, followed by boot recovery:
the stage and backup directories end empty; if the fault hits before the
installed-version record write, the record still holds the old version and
the recovered live tree agrees with the pre-swap live tree on every
pre-swap path, any extra live path being a newly added file already
carrying its staged content; if the fault hits at or after the record
write, the record holds the new version and every live path holds either
its new-version content or its pre-swap content; once all operations have
run, the live tree is exactly the new tree.  The original claim fails in
both directions (see the counterexample): newly added files can survive
recovery while the record is still old, and when the fault hits after the
record write but before backup clearing, recovery restores old content
over committed files although the record already names the new version.
Hypotheses: staged paths are distinct, deletion paths are distinct and
disjoint from staged paths, and no allow/ignore filters are configured. -/
theorem claimC1_swap_crash_recovery (live0 stage0 : FileMap)
    (deletes : List String) (v0 vNew : String × String) (k : Nat)
    (hndS : (keysF stage0).Nodup) (hndD : deletes.Nodup)
    (hdisj : ∀ d ∈ deletes, findF stage0 d = none) :
    (recoveredFs live0 stage0 deletes v0 vNew k).stage = [] ∧
    (recoveredFs live0 stage0 deletes v0 vNew k).backup = [] ∧
    (k ≤ preLen live0 stage0 deletes →
      (recoveredFs live0 stage0 deletes v0 vNew k).version = v0 ∧
      ∀ p, findF (recoveredFs live0 stage0 deletes v0 vNew k).live p =
            findF live0 p ∨
        (findF live0 p = none ∧
          findF (recoveredFs live0 stage0 deletes v0 vNew k).live p =
            findF stage0 p ∧
          findF stage0 p ≠ none)) ∧
    (preLen live0 stage0 deletes < k →
      (recoveredFs live0 stage0 deletes v0 vNew k).version = vNew ∧
      ∀ p, findF (recoveredFs live0 stage0 deletes v0 vNew k).live p =
            newTreeAt stage0 live0 deletes p ∨
          findF (recoveredFs live0 stage0 deletes v0 vNew k).live p =
            findF live0 p) ∧
    ((swapOps [] [] stage0 deletes (liveHasOf live0) vNew).length ≤ k →
      ∀ p, findF (recoveredFs live0 stage0 deletes v0 vNew k).live p =
        newTreeAt stage0 live0 deletes p) := by
  refine ⟨rfl, rfl, ?_, ?_, ?_⟩
  · intro hk
    constructor
    · show (crashFs live0 stage0 deletes v0 vNew k).version = v0
      exact crashFs_version_le live0 stage0 deletes v0 vNew k hk
    · intro p
      rw [recoveredFs_live]
      exact branch1_path live0 stage0 deletes vNew k hndS hndD hdisj hk p
  · intro hk
    constructor
    · show (crashFs live0 stage0 deletes v0 vNew k).version = vNew
      exact crashFs_version_gt live0 stage0 deletes v0 vNew k hk
    · intro p
      rw [recoveredFs_live]
      exact branch2_path live0 stage0 deletes vNew k hndS hndD hdisj hk p
  · intro hk
    intro p
    rw [recoveredFs_live]
    exact branch3_path live0 stage0 deletes vNew k hndS hndD hdisj hk p

/-- Counterexample for claim C1 as stated.  Pre-swap: live tree holds path
a with content 0, the stage holds a with new content 1, no deletions.  The
operation list is backup, promote, record write, backup removal; the fault
hits after the record write (prefix length 3), before the backup directory
is cleared.  Boot recovery then restores the old content from the backup:
the installed-version record reflects the new version, yet the
new-version file is not present in the live tree (a holds 0, its staged
content was 1), refuting the claim that a new record implies every
new-version file is present.  (The converse direction also fails: with
prefix length 1 of the sequence promote-then-write for a fresh file, the
record stays old while the new file survives recovery.) -/
theorem claimC1_counterexample :
    (recoveredFs [("a", 0)] [("a", 1)] [] ("v0", "c0") ("v1", "c1") 3).version
      = ("v1", "c1") ∧
    findF (recoveredFs [("a", 0)] [("a", 1)] [] ("v0", "c0")
      ("v1", "c1") 3).live "a" = some 0 ∧
    findF [("a", 1)] "a" = some 1 := by
  refine ⟨by decide, by decide, by decide⟩

/-- Witness for claim C1: a fault after only the backup rename (prefix
length 1) keeps the old record and recovery restores the old content. -/
theorem claimC1_witness :
    (recoveredFs [("a", 0)] [("a", 1)] [] ("v0", "c0") ("v1", "c1") 1).version
      = ("v0", "c0") ∧
    findF (recoveredFs [("a", 0)] [("a", 1)] [] ("v0", "c0")
      ("v1", "c1") 1).live "a" = some 0 := by
  have h := claimC1_swap_crash_recovery [("a", 0)] [("a", 1)] []
    ("v0", "c0") ("v1", "c1") 1 (by decide) (by decide) (by simp)
  have hk : (1 : Nat) ≤ preLen [("a", 0)] [("a", 1)] [] := by decide
  obtain ⟨hver, hall⟩ := h.2.2.1 hk
  refine ⟨hver, ?_⟩
  rcases hall "a" with hc | hc
  · rw [hc]; decide
  · exfalso
    have hnone := hc.1
    simp [findF] at hnone

theorem copyOldLoop_spec (old : List Nat) (cs : Nat) (hcs : 1 ≤ cs) :
    ∀ (fuel pos remaining : Nat), remaining ≤ fuel →
      copyOldLoop old cs fuel pos remaining =
        if remaining = 0 ∨ pos + remaining ≤ old.length then
          .ok ((old.drop pos).take remaining)
        else .error .eofOldFile := by
  intro fuel
  induction fuel with
  | zero =>
      intro pos remaining h
      have h0 : remaining = 0 := Nat.le_zero.mp h
      subst h0
      simp [copyOldLoop]
  | succ f ih =>
      intro pos remaining h
      by_cases h0 : remaining = 0
      · subst h0
        simp [copyOldLoop]
      · have h1 : 1 ≤ remaining := Nat.one_le_iff_ne_zero.mpr h0
        have hchunk1 : 1 ≤ min cs remaining := le_min hcs h1
        have hchunkr : min cs remaining ≤ remaining := min_le_right _ _
        have hdlen : ((old.drop pos).take (min cs remaining)).length =
            min (min cs remaining) (old.length - pos) := by
          rw [List.length_take, List.length_drop]
        simp only [copyOldLoop, h0, if_false]
        by_cases hin : pos + remaining ≤ old.length
        · have hfull : ((old.drop pos).take (min cs remaining)).length =
              min cs remaining := by
            rw [hdlen]
            omega
          rw [if_neg (by rw [hfull]; exact fun hc => hc rfl)]
          have hrec := ih (pos + min cs remaining) (remaining - min cs remaining)
            (by omega)
          rw [hrec, if_pos (by omega)]
          rw [if_pos (Or.inr hin)]
          have hdd : (old.drop (pos + min cs remaining)) =
              ((old.drop pos).drop (min cs remaining)) := by
            rw [List.drop_drop]
          rw [hdd]
          have htadd : (old.drop pos).take remaining =
              (old.drop pos).take (min cs remaining) ++
                ((old.drop pos).drop (min cs remaining)).take
                  (remaining - min cs remaining) := by
            rw [← List.take_add]
            congr 1
            omega
          rw [htadd]
        · by_cases hb : old.length - pos < min cs remaining
          · rw [if_pos (by rw [hdlen]; omega)]
            rw [if_neg (by simp; omega)]
          · push_neg at hb
            have hfull : ((old.drop pos).take (min cs remaining)).length =
                min cs remaining := by
              rw [hdlen]
              omega
            rw [if_neg (by rw [hfull]; exact fun hc => hc rfl)]
            have hlt : min cs remaining < remaining := by
              rcases Nat.lt_or_ge (min cs remaining) remaining with hx | hx
              · exact hx
              · exfalso
                have : min cs remaining = remaining := le_antisymm hchunkr hx
                omega
            have hrec := ih (pos + min cs remaining)
              (remaining - min cs remaining) (by omega)
            rw [hrec, if_neg (by push_neg; omega)]
            rw [if_neg (by simp; omega)]

theorem copyOld_spec (old : List Nat) (offset len cs : Nat) (hcs : 1 ≤ cs) :
    copyOld old offset len cs =
      if len = 0 ∨ offset + len ≤ old.length then
        .ok ((old.drop offset).take len)
      else .error .eofOldFile :=
  copyOldLoop_spec old cs hcs len offset len (le_refl len)

theorem stream_phased (old : List Nat) (cs : Nat) (hcs : 1 ≤ cs) :
    ∀ (fuel : Nat) (d out : List Nat),
      match parseStreamLoop fuel d with
      | .ok is => applyStreamLoop old cs fuel d out = execInstrs old is out
      | .error _ => (applyStreamLoop old cs fuel d out).isOk = false := by
  intro fuel
  induction fuel with
  | zero =>
      intro d out
      simp [parseStreamLoop, applyStreamLoop, Except.isOk, Except.toBool, isOk_error_eq, isOk_ok_eq]
  | succ f ih =>
      intro d out
      cases d with
      | nil => simp [parseStreamLoop, applyStreamLoop, Except.isOk, Except.toBool, isOk_error_eq, isOk_ok_eq]
      | cons op rest =>
          by_cases h255 : (op == 255) = true
          · simp [parseStreamLoop, applyStreamLoop, h255, execInstrs]
          · have h255f : (op == 255) = false := by simpa using h255
            by_cases h1 : (op == 1) = true
            · cases hv1 : readVarintS rest 0 0 with
              | error e =>
                  simp [parseStreamLoop, applyStreamLoop, h255f, h1, hv1,
                    Except.isOk]
              | ok pr1 =>
                  obtain ⟨coff, r1⟩ := pr1
                  cases hv2 : readVarintS r1 0 0 with
                  | error e =>
                      simp [parseStreamLoop, applyStreamLoop, h255f, h1, hv1,
                        hv2, Except.isOk, Except.toBool, isOk_error_eq, isOk_ok_eq]
                  | ok pr2 =>
                      obtain ⟨clen, r2⟩ := pr2
                      by_cases hcap : 4096 < clen
                      · simp [parseStreamLoop, applyStreamLoop, h255f, h1,
                          hv1, hv2, hcap, Except.isOk, Except.toBool, isOk_error_eq, isOk_ok_eq]
                      · have hco := copyOld_spec old coff clen cs hcs
                        have hih := ih r2 (out ++ (old.drop coff).take clen)
                        by_cases hrange : clen = 0 ∨ coff + clen ≤ old.length
                        · rw [if_pos hrange] at hco
                          cases hp : parseStreamLoop f r2 with
                          | ok is =>
                              rw [hp] at hih
                              simp only [parseStreamLoop, applyStreamLoop,
                                h255f, h1, hv1, hv2, hcap, hp, hco,
                                Bool.false_eq_true, if_false, if_true,
                                if_neg hcap]
                              simp only [execInstrs, execInstr,
                                if_pos hrange]
                              exact hih
                          | error e =>
                              rw [hp] at hih
                              simp only [parseStreamLoop, applyStreamLoop,
                                h255f, h1, hv1, hv2, hcap, hp, hco,
                                Bool.false_eq_true, if_false, if_true,
                                if_neg hcap]
                              exact hih
                        · rw [if_neg hrange] at hco
                          cases hp : parseStreamLoop f r2 with
                          | ok is =>
                              simp only [parseStreamLoop, applyStreamLoop,
                                h255f, h1, hv1, hv2, hcap, hp, hco,
                                Bool.false_eq_true, if_false, if_true,
                                if_neg hcap]
                              simp [execInstrs, execInstr, hrange]
                          | error e =>
                              simp only [parseStreamLoop, applyStreamLoop,
                                h255f, h1, hv1, hv2, hcap, hp, hco,
                                Bool.false_eq_true, if_false, if_true,
                                if_neg hcap]
                              simp [Except.isOk, Except.toBool, isOk_error_eq, isOk_ok_eq]
            · have h1f : (op == 1) = false := by simpa using h1
              by_cases h2 : (op == 2) = true
              · cases hv1 : readVarintS rest 0 0 with
                | error e =>
                    simp [parseStreamLoop, applyStreamLoop, h255f, h1f, h2,
                      hv1, Except.isOk, Except.toBool, isOk_error_eq, isOk_ok_eq]
                | ok pr1 =>
                    obtain ⟨ilen, r1⟩ := pr1
                    by_cases hcap : 2048 < ilen
                    · simp [parseStreamLoop, applyStreamLoop, h255f, h1f,
                        h2, hv1, hcap, Except.isOk, Except.toBool, isOk_error_eq, isOk_ok_eq]
                    · cases hrb : readBytesS r1 ilen with
                      | error e =>
                          simp [parseStreamLoop, applyStreamLoop, h255f,
                            h1f, h2, hv1, hcap, hrb, Except.isOk, Except.toBool, isOk_error_eq, isOk_ok_eq]
                      | ok pr2 =>
                          obtain ⟨data, r2⟩ := pr2
                          have hih := ih r2 (out ++ data)
                          cases hp : parseStreamLoop f r2 with
                          | ok is =>
                              rw [hp] at hih
                              simp only [parseStreamLoop, applyStreamLoop,
                                h255f, h1f, h2, hv1, hrb, hp,
                                Bool.false_eq_true, if_false, if_true,
                                if_neg hcap]
                              simp only [execInstrs, execInstr]
                              exact hih
                          | error e =>
                              rw [hp] at hih
                              simp only [parseStreamLoop, applyStreamLoop,
                                h255f, h1f, h2, hv1, hrb, hp,
                                Bool.false_eq_true, if_false, if_true,
                                if_neg hcap]
                              exact hih
              · have h2f : (op == 2) = false := by simpa using h2
                simp [parseStreamLoop, applyStreamLoop, h255f, h1f, h2f,
                  Except.isOk]

/-- Witness for claim C9: a concrete one-file plan of 4 bytes passes with 8
free bytes and fails with 7. -/
theorem claimC9_witness :
    validateUpdatePlan [] [] (some 8) 0 [⟨"app.py", 4⟩] = true ∧
    validateUpdatePlan [] [] (some 7) 0 [⟨"app.py", 4⟩] = false := by
  have h := claimC9_storage_gate [] [] [⟨"app.py", 4⟩]
    (by intro e he; simp at he; subst he; constructor <;> decide)
  exact ⟨h.1, h.2 (by decide)⟩

theorem legacy_phased (old : List Nat) (cs : Nat) (hcs : 1 ≤ cs) :
    ∀ (fuel : Nat) (d out : List Nat),
      match parseLegacyLoop fuel d with
      | .ok is => applyLegacyLoop old cs fuel d out = execInstrs old is out
      | .error _ => (applyLegacyLoop old cs fuel d out).isOk = false := by
  intro fuel
  induction fuel with
  | zero =>
      intro d out
      simp [parseLegacyLoop, applyLegacyLoop, Except.isOk, Except.toBool]
  | succ f ih =>
      intro d out
      cases d with
      | nil => simp [parseLegacyLoop, applyLegacyLoop, execInstrs]
      | cons op rest =>
          by_cases h255 : (op == 255) = true
          · simp [parseLegacyLoop, applyLegacyLoop, h255, execInstrs]
          · have h255f : (op == 255) = false := by simpa using h255
            by_cases h1 : (op == 1) = true
            · rcases hv1 : readVarintL rest 0 0 with ⟨coff, rem1⟩
              rcases hv2 : readVarintL rem1 0 0 with ⟨clen, r2⟩
              by_cases hcap : 4096 < clen
              · simp [parseLegacyLoop, applyLegacyLoop, h255f, h1, hv1, hv2,
                  hcap, Except.isOk, Except.toBool]
              · have hco := copyOld_spec old coff clen cs hcs
                have hih := ih r2 (out ++ (old.drop coff).take clen)
                by_cases hrange : clen = 0 ∨ coff + clen ≤ old.length
                · rw [if_pos hrange] at hco
                  cases hp : parseLegacyLoop f r2 with
                  | ok is =>
                      rw [hp] at hih
                      simp only [parseLegacyLoop, applyLegacyLoop, h255f, h1,
                        hv1, hv2, hp, hco, Bool.false_eq_true, if_false,
                        if_true, if_neg hcap]
                      simp only [execInstrs, execInstr, if_pos hrange]
                      exact hih
                  | error e =>
                      rw [hp] at hih
                      simp only [parseLegacyLoop, applyLegacyLoop, h255f, h1,
                        hv1, hv2, hp, hco, Bool.false_eq_true, if_false,
                        if_true, if_neg hcap]
                      exact hih
                · rw [if_neg hrange] at hco
                  cases hp : parseLegacyLoop f r2 with
                  | ok is =>
                      simp only [parseLegacyLoop, applyLegacyLoop, h255f, h1,
                        hv1, hv2, hp, hco, Bool.false_eq_true, if_false,
                        if_true, if_neg hcap]
                      simp [execInstrs, execInstr, hrange]
                  | error e =>
                      simp only [parseLegacyLoop, applyLegacyLoop, h255f, h1,
                        hv1, hv2, hp, hco, Bool.false_eq_true, if_false,
                        if_true, if_neg hcap]
                      simp [Except.isOk, Except.toBool]
            · have h1f : (op == 1) = false := by simpa using h1
              by_cases h2 : (op == 2) = true
              · rcases hv1 : readVarintL rest 0 0 with ⟨ilen, rem1⟩
                by_cases hcap : 2048 < ilen
                · simp [parseLegacyLoop, applyLegacyLoop, h255f, h1f, h2,
                    hv1, hcap, Except.isOk, Except.toBool]
                · by_cases htr : rem1.length < ilen
                  · simp [parseLegacyLoop, applyLegacyLoop, h255f, h1f, h2,
                      hv1, hcap, htr, Except.isOk, Except.toBool]
                  · have hih := ih (rem1.drop ilen) (out ++ rem1.take ilen)
                    cases hp : parseLegacyLoop f (rem1.drop ilen) with
                    | ok is =>
                        rw [hp] at hih
                        simp only [parseLegacyLoop, applyLegacyLoop, h255f,
                          h1f, h2, hv1, hp, Bool.false_eq_true, if_false,
                          if_true, if_neg hcap, if_neg htr]
                        simp only [execInstrs, execInstr]
                        exact hih
                    | error e =>
                        rw [hp] at hih
                        simp only [parseLegacyLoop, applyLegacyLoop, h255f,
                          h1f, h2, hv1, hp, Bool.false_eq_true, if_false,
                          if_true, if_neg hcap, if_neg htr]
                        exact hih
              · have h2f : (op == 2) = false := by simpa using h2
                simp [parseLegacyLoop, applyLegacyLoop, h255f, h1f, h2f,
                  Except.isOk, Except.toBool]

theorem applyDeltaStream_phased (old delta : List Nat)
    (expected : Option String) (cs : Nat) (hcs : 1 ≤ cs) :
    match parseDeltaStream delta with
    | .ok is =>
        applyDeltaStream old delta expected cs =
          match execInstrs old is [] with
          | .ok out => finishHash out expected
          | .error e => .error e
    | .error _ => (applyDeltaStream old delta expected cs).isOk = false := by
  unfold applyDeltaStream parseDeltaStream
  by_cases hlen : delta.length < 8
  · simp [hlen, Except.isOk, Except.toBool]
  · by_cases hmag : delta.take 8 ≠ deltaMagic
    · simp [hlen, hmag, Except.isOk, Except.toBool]
    · cases hdrop : delta.drop 8 with
      | nil => simp [hlen, hmag, hdrop, Except.isOk, Except.toBool]
      | cons v body =>
          by_cases hv : v ≠ 1
          · simp [hlen, hmag, hdrop, hv, Except.isOk, Except.toBool]
          · have h := stream_phased old cs hcs (body.length + 1) body []
            cases hp : parseStreamLoop (body.length + 1) body with
            | ok is =>
                rw [hp] at h
                simp only [hlen, hmag, hdrop, hv, if_false, if_neg hlen,
                  if_neg hmag, if_neg hv, hp, h]
                cases execInstrs old is [] <;> rfl
            | error e =>
                rw [hp] at h
                cases ha : applyStreamLoop old cs (body.length + 1) body []
                  with
                | ok out => rw [ha] at h; simp at h
                | error e2 =>
                    simp only [hlen, hmag, hdrop, hv, if_false, if_neg hlen,
                      if_neg hmag, if_neg hv, hp, ha]
                    simp [Except.isOk, Except.toBool]

theorem applyDeltaLegacy_phased (old delta : List Nat)
    (expected : Option String) (cs : Nat) (hcs : 1 ≤ cs) :
    match parseDeltaLegacy delta with
    | .ok is =>
        applyDeltaLegacy old delta expected cs =
          match execInstrs old is [] with
          | .ok out => finishHash out expected
          | .error e => .error e
    | .error _ => (applyDeltaLegacy old delta expected cs).isOk = false := by
  unfold applyDeltaLegacy parseDeltaLegacy
  by_cases hlen : delta.length < 9
  · simp [hlen, Except.isOk, Except.toBool]
  · by_cases hmag : delta.take 8 ≠ deltaMagic
    · simp [hlen, hmag, Except.isOk, Except.toBool]
    · cases hdrop : delta.drop 8 with
      | nil => simp [hlen, hmag, hdrop, Except.isOk, Except.toBool]
      | cons v body =>
          by_cases hv : v ≠ 1
          · simp [hlen, hmag, hdrop, hv, Except.isOk, Except.toBool]
          · have h := legacy_phased old cs hcs (body.length + 1) body []
            cases hp : parseLegacyLoop (body.length + 1) body with
            | ok is =>
                rw [hp] at h
                simp only [hlen, hmag, hdrop, hv, if_false, if_neg hlen,
                  if_neg hmag, if_neg hv, hp, h]
                cases execInstrs old is [] <;> rfl
            | error e =>
                rw [hp] at h
                cases ha : applyLegacyLoop old cs (body.length + 1) body []
                  with
                | ok out => rw [ha] at h; simp at h
                | error e2 =>
                    simp only [hlen, hmag, hdrop, hv, if_false, if_neg hlen,
                      if_neg hmag, if_neg hv, hp, ha]
                    simp [Except.isOk, Except.toBool]

theorem finishHash_isOk (out : List Nat) (expected : Option String) :
    (finishHash out expected).isOk = true ↔ hashOkay expected out := by
  cases expected with
  | none => simp [finishHash, hashOkay]
  | some e =>
      simp only [finishHash, hashOkay]
      by_cases h : e ≠ "" ∧ sha256Hex out ≠ e
      · rw [if_pos h]
        simp only [isOk_error_eq]
        constructor
        · intro hc; cases hc
        · intro hc
          rcases hc with hc | hc
          · exact absurd hc h.1
          · exact absurd hc h.2
      · rw [if_neg h]
        simp only [isOk_ok_eq, true_iff]
        push_neg at h
        by_cases he : e = ""
        · exact Or.inl he
        · exact Or.inr (h he)

theorem phased_iff (ap : Except DeltaErr (List Nat × String))
    (pr : Except DeltaErr (List DeltaInstr)) (old : List Nat)
    (expected : Option String)
    (h : match pr with
         | .ok is =>
             ap = match execInstrs old is [] with
                  | .ok out => finishHash out expected
                  | .error e => .error e
         | .error _ => ap.isOk = false) :
    ap.isOk = true ↔
      ∃ is out, pr = Except.ok is ∧ execInstrs old is [] = Except.ok out ∧
        hashOkay expected out := by
  cases pr with
  | error e =>
      have h2 : ap.isOk = false := h
      rw [h2]
      simp
  | ok is =>
      have h2 : ap = match execInstrs old is [] with
          | .ok out => finishHash out expected
          | .error e => .error e := h
      cases hx : execInstrs old is [] with
      | ok out =>
          have h3 : ap = finishHash out expected := by rw [h2, hx]
          rw [h3, finishHash_isOk]
          constructor
          · intro hok
            exact ⟨is, out, rfl, hx, hok⟩
          · rintro ⟨is2, out2, hq, hx2, hok⟩
            have his : is2 = is := by
              injection hq with hq2
              exact hq2.symm
            subst his
            rw [hx] at hx2
            injection hx2 with hx3
            subst hx3
            exact hok
      | error e =>
          have h3 : ap = Except.error e := by rw [h2, hx]
          rw [h3]
          simp only [isOk_error_eq, Bool.false_eq_true, false_iff]
          rintro ⟨is2, out2, hq, hx2, hok⟩
          have his : is2 = is := by
            injection hq with hq2
            exact hq2.symm
          subst his
          rw [hx] at hx2
          cases hx2

theorem parse_ins_chunk (f : Nat) :
    parseStreamLoop (Nat.succ (Nat.succ f))
      (2 :: 128 :: 16 :: (List.replicate 2048 7 ++ [255])) =
      Except.ok [DeltaInstr.ins (List.replicate 2048 7)] := by
  have hv : readVarintS (128 :: 16 :: (List.replicate 2048 7 ++ [255])) 0 0
      = Except.ok (2048, List.replicate 2048 7 ++ [255]) := rfl
  have hrb : readBytesS (List.replicate 2048 7 ++ [255]) 2048
      = Except.ok (List.replicate 2048 7, [255]) := by
    have hnl : ¬ (List.replicate 2048 7 ++ [255] : List Nat).length < 2048
        := by
      rw [List.length_append, List.length_replicate]
      decide
    unfold readBytesS
    rw [if_neg hnl, List.take_left' (List.length_replicate 2048 7),
      List.drop_left' (List.length_replicate 2048 7)]
  simp only [parseStreamLoop, hv, hrb,
    show ((2 : Nat) == 255) = false from rfl,
    show ((2 : Nat) == 1) = false from rfl,
    show ((2 : Nat) == 2) = true from rfl,
    show ((255 : Nat) == 255) = true from rfl,
    Bool.false_eq_true, if_false, if_true,
    if_neg (by decide : ¬ (2048 : Nat) < 2048)]

/-- Claim C4: apply-delta in both modes raises a delta error exactly when
the input shows bad magic or version, truncation, an unknown opcode, a
COPY length over 4096, an INSERT length over 2048, an out-of-range COPY,
or a final hash mismatch, with the boundary lengths 4096 and 2048
accepted; amended: in the legacy bytes mode, running out of input at an
instruction boundary (EOF before END) is NOT an error but ends the delta
successfully, so only the streaming mode rejects a missing END opcode.
Success of either mode is characterised as: the header and instruction
stream parse (which encodes the magic, version, truncation, opcode and
length-cap checks of that mode), every COPY stays inside the old file,
and the output hash is accepted; the last four conjuncts exhibit the
boundary behaviour of the length caps. -/
theorem claimC4_delta_errors :
    (∀ (old delta : List Nat) (expected : Option String) (cs : Nat),
        1 ≤ cs →
        ((applyDeltaStream old delta expected cs).isOk = true ↔
          ∃ is out, parseDeltaStream delta = Except.ok is ∧
            execInstrs old is [] = Except.ok out ∧ hashOkay expected out)) ∧
    (∀ (old delta : List Nat) (expected : Option String) (cs : Nat),
        1 ≤ cs →
        ((applyDeltaLegacy old delta expected cs).isOk = true ↔
          ∃ is out, parseDeltaLegacy delta = Except.ok is ∧
            execInstrs old is [] = Except.ok out ∧ hashOkay expected out)) ∧
    parseDeltaStream (deltaMagic ++ [1, 1, 0, 128, 32, 255]) =
      Except.ok [DeltaInstr.copy 0 4096] ∧
    parseDeltaStream (deltaMagic ++ [1, 1, 0, 129, 32, 255]) =
      Except.error DeltaErr.copyTooLarge ∧
    parseDeltaStream
        (deltaMagic ++ ([1, 2, 128, 16] ++ (List.replicate 2048 7 ++ [255])))
      = Except.ok [DeltaInstr.ins (List.replicate 2048 7)] ∧
    parseDeltaStream (deltaMagic ++ [1, 2, 129, 16, 255]) =
      Except.error DeltaErr.insertTooLarge := by
  refine ⟨?_, ?_, by decide, by decide, ?_, by decide⟩
  · intro old delta expected cs hcs
    exact phased_iff _ _ old expected
      (applyDeltaStream_phased old delta expected cs hcs)
  · intro old delta expected cs hcs
    exact phased_iff _ _ old expected
      (applyDeltaLegacy_phased old delta expected cs hcs)
  · have h8 : deltaMagic.length = 8 := rfl
    have hnl : ¬ (deltaMagic ++ ([1, 2, 128, 16] ++
        (List.replicate 2048 7 ++ [255]))).length < 8 := by
      rw [List.length_append, h8]
      omega
    have hbl : (2 :: 128 :: 16 :: (List.replicate 2048 7 ++ [255])
        : List Nat).length + 1 = Nat.succ (Nat.succ 2051) := by
      rw [List.length_cons, List.length_cons, List.length_cons,
        List.length_append, List.length_replicate]
      decide
    unfold parseDeltaStream
    rw [if_neg hnl, List.take_left' h8,
      if_neg (by simp : ¬ deltaMagic ≠ deltaMagic), List.drop_left' h8]
    simp only [List.cons_append, List.nil_append,
      if_neg (by simp : ¬ (1 : Nat) ≠ 1)]
    rw [hbl]
    exact parse_ins_chunk 2051

/-- Counterexample to the original C4: a legacy-mode delta that ends
right after the version byte, containing no END opcode at all, is
accepted (the loop just stops at EOF), while the streaming mode rejects
the same bytes as truncated. -/
theorem claimC4_counterexample :
    (applyDeltaLegacy [] (deltaMagic ++ [1]) none 512).isOk = true ∧
    (applyDeltaStream [] (deltaMagic ++ [1]) none 512).isOk = false ∧
    ¬ (255 ∈ deltaMagic ++ [1]) := by decide

/-- Witness for claim C4: both modes accept a well-formed delta with one
in-range COPY instruction. -/
theorem claimC4_witness :
    (applyDeltaStream [3] (deltaMagic ++ [1, 1, 0, 1, 255]) none 512).isOk
      = true ∧
    (applyDeltaLegacy [3] (deltaMagic ++ [1, 1, 0, 1, 255]) none 512).isOk
      = true :=
  ⟨(claimC4_delta_errors.1 [3] (deltaMagic ++ [1, 1, 0, 1, 255]) none 512
        (by decide)).mpr
      ⟨[DeltaInstr.copy 0 1], [3], by decide, by decide, trivial⟩,
   (claimC4_delta_errors.2.1 [3] (deltaMagic ++ [1, 1, 0, 1, 255]) none 512
        (by decide)).mpr
      ⟨[DeltaInstr.copy 0 1], [3], by decide, by decide, trivial⟩⟩

theorem flushIns_nil (delta : List Nat) : flushIns delta [] = delta := rfl

theorem dictInsert_nil (k : List Nat) (i : Nat) :
    dictInsert [] k i = [(k, [i])] := by
  simp [dictInsert, List.lookup]

theorem dictInsert_one_same (k : List Nat) (v : List Nat) (i : Nat) :
    dictInsert [(k, v)] k i = [(k, v ++ [i])] := by
  simp [dictInsert, List.lookup]

theorem dictInsert_one_new (k k1 : List Nat) (v : List Nat) (i : Nat)
    (h : (k1 == k) = false) :
    dictInsert [(k, v)] k1 i = [(k, v), (k1, [i])] := by
  simp [dictInsert, List.lookup, h]

theorem lookup512 :
    List.lookup (blockKey (List.replicate 512 0))
      (buildBlocks (List.replicate 4097 0) 512) =
      some [0, 512, 1024, 1536, 2048, 2560, 3072, 3584] := by
  have hne : (blockKey (List.replicate 1 0) ==
      blockKey (List.replicate 512 0)) = false := by decide
  unfold buildBlocks
  rw [List.length_replicate,
    show (4097 + 512 - 1) / 512 = 9 from rfl,
    show List.range' 0 9 512 =
      [0, 512, 1024, 1536, 2048, 2560, 3072, 3584, 4096] from rfl]
  simp only [List.foldl_cons, List.foldl_nil, List.drop_replicate,
    List.take_replicate, Nat.sub_zero,
    show min 512 4097 = 512 by decide,
    show min 512 (4097 - 512) = 512 by decide,
    show min 512 (4097 - 1024) = 512 by decide,
    show min 512 (4097 - 1536) = 512 by decide,
    show min 512 (4097 - 2048) = 512 by decide,
    show min 512 (4097 - 2560) = 512 by decide,
    show min 512 (4097 - 3072) = 512 by decide,
    show min 512 (4097 - 3584) = 512 by decide,
    show min 512 (4097 - 4096) = 1 by decide]
  rw [dictInsert_nil, dictInsert_one_same, dictInsert_one_same,
    dictInsert_one_same, dictInsert_one_same, dictInsert_one_same,
    dictInsert_one_same, dictInsert_one_same,
    dictInsert_one_new _ _ _ _ hne]
  simp only [List.lookup, beq_self_eq_true, List.cons_append,
    List.nil_append]

theorem extendMatchLoop_replicate (n : Nat) :
    ∀ (f k : Nat), k ≤ n → n ≤ k + f →
      extendMatchLoop (List.replicate n 0) (List.replicate n 0) 0 0 f k = n
    := by
  intro f
  induction f with
  | zero =>
      intro k hk hn
      have hkn : k = n := le_antisymm hk (by omega)
      simp [extendMatchLoop, hkn]
  | succ f ih =>
      intro k hk hn
      simp only [extendMatchLoop]
      by_cases hlt : k < n
      · rw [if_pos]
        · exact ih (k + 1) (by omega) (by omega)
        · exact ⟨by rw [List.length_replicate]; omega,
            by rw [List.length_replicate]; omega, by trivial⟩
      · rw [if_neg]
        · omega
        · intro hc
          have h1 := hc.1
          rw [List.length_replicate] at h1
          omega

theorem createLoop_gen (oldB : List (List Nat × List Nat))
    (old new : List Nat) (f : Nat) (delta : List Nat)
    (hlen : new.length = 4097)
    (hblock : (new.drop 0).take 512 = List.replicate 512 0)
    (hlook : List.lookup (blockKey (List.replicate 512 0)) oldB =
      some [0, 512, 1024, 1536, 2048, 2560, 3072, 3584])
    (hext : extendMatch old new 0 0 512 = 4097) :
    createLoop oldB old new 512 (Nat.succ (Nat.succ f)) 0 delta [] =
      delta ++ [1] ++ [0] ++ [129, 32] ++ [255] := by
  simp only [createLoop, hlen, hblock, hlook, hext, Nat.zero_add,
    if_neg (by decide : ¬ (4097 : Nat) ≤ 0),
    if_pos (by decide : (0 : Nat) + 512 ≤ 4097),
    if_pos (by decide : (512 : Nat) ≤ 4097),
    if_pos (by decide : (4097 : Nat) ≤ 0 + 4097),
    if_pos (by decide : (4097 : Nat) ≤ 4097),
    flushIns_nil,
    show writeVarint 0 = [0] from rfl,
    show writeVarint 4097 = [129, 32] from rfl]

theorem createDelta_rep :
    createDelta (List.replicate 4097 0) (List.replicate 4097 0) 512 =
      deltaMagic ++ [1, 1, 0, 129, 32, 255] := by
  have hstep := createLoop_gen
    (buildBlocks (List.replicate 4097 0) 512)
    (List.replicate 4097 0) (List.replicate 4097 0) 4096
    (deltaMagic ++ [1])
    (List.length_replicate 4097 0)
    (by simp only [List.drop_replicate, List.take_replicate, Nat.sub_zero,
      show min 512 4097 = 512 by decide])
    lookup512
    (by
      unfold extendMatch
      rw [List.length_replicate]
      exact extendMatchLoop_replicate 4097 4097 512 (by decide) (by decide))
  unfold createDelta
  rw [List.length_replicate,
    show (4097 : Nat) + 1 = Nat.succ (Nat.succ 4096) from rfl, hstep]
  decide

/-- Claim C3: the delta round-trip property fails.  create-delta's match
extension is uncapped, so on a 4097-byte old file identical to the new
file it emits a single COPY of length 4097; apply-delta (both modes)
rejects any COPY longer than 4096 bytes, so applying the delta produced
by create-delta to the very file it was built from raises a delta error
instead of reproducing the new file and its hash. -/
theorem claimC3_roundtrip_bug :
    createDelta (List.replicate 4097 0) (List.replicate 4097 0) 512 =
      deltaMagic ++ [1, 1, 0, 129, 32, 255] ∧
    applyDeltaStream (List.replicate 4097 0)
      (deltaMagic ++ [1, 1, 0, 129, 32, 255])
      (some (sha256Hex (List.replicate 4097 0))) 512 =
      Except.error DeltaErr.copyTooLarge ∧
    applyDeltaLegacy (List.replicate 4097 0)
      (deltaMagic ++ [1, 1, 0, 129, 32, 255])
      (some (sha256Hex (List.replicate 4097 0))) 512 =
      Except.error DeltaErr.copyTooLarge :=
  ⟨createDelta_rep, by decide, by decide⟩

theorem runManifest_error (allow ignore : List String) (p : String)
    (e : OtaErr) (hp : manifestFileStep allow ignore p = Except.error e) :
    ∀ (ps rest acc : List String),
      (runManifestFiles allow ignore (ps ++ p :: rest) acc).2.isSome = true
        ∧
      ∀ r, r ∈ (runManifestFiles allow ignore (ps ++ p :: rest) acc).1 →
        r ∈ acc.reverse ++ ps := by
  intro ps
  induction ps with
  | nil =>
      intro rest acc
      simp [runManifestFiles, hp]
  | cons q ps ih =>
      intro rest acc
      cases hq : manifestFileStep allow ignore q with
      | error e2 =>
          constructor
          · simp [runManifestFiles, hq]
          · intro r hr
            simp [runManifestFiles, hq] at hr
            simp [hr]
      | ok b =>
          cases b
          · have hrec := ih rest acc
            constructor
            · simp only [List.cons_append, runManifestFiles, hq]
              exact hrec.1
            · intro r hr
              simp only [List.cons_append, runManifestFiles, hq] at hr
              have hm := hrec.2 r hr
              simp only [List.mem_append, List.mem_cons] at hm ⊢
              tauto
          · have hrec := ih rest (q :: acc)
            constructor
            · simp only [List.cons_append, runManifestFiles, hq]
              exact hrec.1
            · intro r hr
              simp only [List.cons_append, runManifestFiles, hq] at hr
              have hm := hrec.2 r hr
              simp only [List.reverse_cons, List.mem_append, List.mem_cons,
                List.mem_singleton] at hm ⊢
              tauto

/-- Claim C7 (amended): the identity skip of the staging step is keyed to
an already STAGED copy of the file, not to the live file.  The download
of a manifest asset is skipped exactly when a non-empty expected SHA-256
is supplied and the staged destination exists with that hash; the git
streaming download is skipped exactly when the staged path exists with
the declared size and git blob identity; and with an empty stage
directory (the state at the start of an update) nothing is ever skipped,
whatever the live files hold. -/
theorem claimC7_identity_skip :
    (∀ (stage : List (String × List Nat)) (dest e : String), e ≠ "" →
        (downloadAssetSkips stage dest (some e) = true ↔
          ∃ c, lookupB stage dest = some c ∧ sha256Hex c = e)) ∧
    (∀ (stage : List (String × List Nat)) (p : String) (size : Nat)
        (sha : String),
        streamGitSkips stage p size sha = true ↔
          ∃ c, lookupB stage p = some c ∧ c.length = size ∧
            gitBlobSha1 size c = sha) ∧
    (∀ (dest : String) (e : Option String),
        downloadAssetSkips [] dest e = false) ∧
    (∀ (p : String) (size : Nat) (sha : String),
        streamGitSkips [] p size sha = false) := by
  refine ⟨?_, ?_, ?_, ?_⟩
  · intro stage dest e he
    simp only [downloadAssetSkips]
    rw [if_neg he]
    cases hl : lookupB stage dest with
    | none =>
        simp [hl]
    | some c =>
        simp only [beq_iff_eq]
        constructor
        · intro hc
          exact ⟨c, rfl, hc⟩
        · rintro ⟨c2, hc2, hh⟩
          injection hc2 with hc2
          subst hc2
          exact hh
  · intro stage p size sha
    cases hl : lookupB stage p with
    | none => simp [streamGitSkips, hl]
    | some c =>
        simp only [streamGitSkips, hl, Option.some.injEq]
        by_cases hlen : c.length = size
        · rw [if_pos hlen]
          simp [hlen, beq_iff_eq]
        · rw [if_neg hlen]
          simp [hlen]
  · intro dest e
    cases e with
    | none => rfl
    | some e2 =>
        simp only [downloadAssetSkips]
        by_cases he : e2 = ""
        · rw [if_pos he]
        · rw [if_neg he]
          rfl
  · intro p size sha
    rfl

/-- Counterexample to the original C7: the live copy of app.py holds the
exact target content (its SHA-256 equals the expected hash and its git
blob identity equals the entry sha), yet with an empty stage directory
neither skip fires, so the file is fetched; the skip fires only once a
staged copy with the same identity exists. -/
theorem claimC7_counterexample :
    downloadAssetSkips [] "app.py" (some (sha256Hex [104, 105])) = false ∧
    streamGitSkips [] "app.py" 2 (gitBlobSha1 2 [104, 105]) = false ∧
    downloadAssetSkips [("app.py", [104, 105])] "app.py"
      (some (sha256Hex [104, 105])) = true ∧
    streamGitSkips [("app.py", [104, 105])] "app.py" 2
      (gitBlobSha1 2 [104, 105]) = true := by
  refine ⟨rfl, rfl, ?_, ?_⟩ <;> decide

/-- Witness for claim C7: the skip characterizations at a one-file staged
directory. -/
theorem claimC7_witness :
    downloadAssetSkips [("lib/a.py", [1, 2, 3])] "lib/a.py"
      (some (sha256Hex [1, 2, 3])) = true ∧
    streamGitSkips [("lib/a.py", [1, 2, 3])] "lib/a.py" 3
      (gitBlobSha1 3 [1, 2, 3]) = true :=
  ⟨(claimC7_identity_skip.1 [("lib/a.py", [1, 2, 3])] "lib/a.py"
      (sha256Hex [1, 2, 3]) (by decide)).mpr
        ⟨[1, 2, 3], by decide, rfl⟩,
   (claimC7_identity_skip.2.1 [("lib/a.py", [1, 2, 3])] "lib/a.py" 3
      (gitBlobSha1 3 [1, 2, 3])).mpr
        ⟨[1, 2, 3], by decide, by decide, rfl⟩⟩

/-- Claim C10: in the stable manifest loop, a permitted entry whose
normalized path has a hidden segment (a dot-initial segment other than
the stage and backup directory names) makes that entry's step raise the
hidden-directory error; an entry failing the allow/ignore filter is
merely skipped; and whenever some entry's step raises, the whole file
loop stops with an error and the only downloads performed are of entries
strictly before the raising one. -/
theorem claimC10_hidden_dir :
    (∀ (allow ignore : List String) (p rel : String),
        normalizePath p = Except.ok rel →
        isPermitted allow ignore rel = true → hiddenSeg rel = true →
        manifestFileStep allow ignore p =
          Except.error OtaErr.hiddenDirectory) ∧
    (∀ (allow ignore : List String) (p rel : String),
        normalizePath p = Except.ok rel →
        isPermitted allow ignore rel = false →
        manifestFileStep allow ignore p = Except.ok false) ∧
    (∀ (allow ignore ps rest : List String) (p : String) (e : OtaErr),
        manifestFileStep allow ignore p = Except.error e →
        (runManifestFiles allow ignore (ps ++ p :: rest) []).2.isSome =
          true ∧
        ∀ r, r ∈ (runManifestFiles allow ignore (ps ++ p :: rest) []).1 →
          r ∈ ps) := by
  refine ⟨?_, ?_, ?_⟩
  · intro allow ignore p rel hn hperm hhid
    unfold manifestFileStep
    rw [hn]
    simp [hperm, hhid]
  · intro allow ignore p rel hn hperm
    unfold manifestFileStep
    rw [hn]
    simp [hperm]
  · intro allow ignore ps rest p e hp
    have h := runManifest_error allow ignore p e hp ps rest []
    refine ⟨h.1, ?_⟩
    intro r hr
    have := h.2 r hr
    simpa using this

/-- Witness for claim C10: a permitted dot-git path raises and stops the
loop after downloading only the preceding entry, while an ignored plain
path is skipped. -/
theorem claimC10_witness :
    manifestFileStep [] [] ".git/config" =
      Except.error OtaErr.hiddenDirectory ∧
    manifestFileStep [] ["lib"] "lib/a.py" = Except.ok false ∧
    (runManifestFiles [] [] ["app.py", ".git/config", "b.py"] []).2.isSome
      = true ∧
    ∀ r, r ∈ (runManifestFiles [] [] ["app.py", ".git/config", "b.py"]
        []).1 → r ∈ ["app.py"] := by
  refine ⟨?_, ?_, ?_, ?_⟩
  · exact claimC10_hidden_dir.1 [] [] ".git/config" ".git/config"
      (by decide) (by decide) (by decide)
  · exact claimC10_hidden_dir.2.1 [] ["lib"] "lib/a.py" "lib/a.py"
      (by decide) (by decide)
  · exact (claimC10_hidden_dir.2.2 [] [] ["app.py"] ["b.py"]
      ".git/config" OtaErr.hiddenDirectory (by decide)).1
  · exact (claimC10_hidden_dir.2.2 [] [] ["app.py"] ["b.py"]
      ".git/config" OtaErr.hiddenDirectory (by decide)).2

theorem char_toNat_inj {a b : Char} (h : a.toNat = b.toNat) : a = b := by
  cases a
  cases b
  simp only [Char.toNat] at h
  congr 1
  exact UInt32.ext h

theorem str_toList_inj {s t : String} (h : s.toList = t.toList) : s = t
    := by
  cases s
  cases t
  simp only [String.toList] at h
  exact congrArg String.mk h

theorem strLeB_total : ∀ x y, strLeB x y = true ∨ strLeB y x = true
  | [], _ => Or.inl rfl
  | _ :: _, [] => Or.inr rfl
  | a :: as, b :: bs => by
      by_cases hab : a = b
      · subst hab
        rcases strLeB_total as bs with h | h
        · left
          simpa [strLeB]
        · right
          simpa [strLeB]
      · have hba : b ≠ a := fun hc => hab hc.symm
        have hne : a.toNat ≠ b.toNat := fun hc => hab (char_toNat_inj hc)
        rcases Nat.lt_or_ge a.toNat b.toNat with h | h
        · left
          simp [strLeB, if_neg hab, h]
        · have hgt : b.toNat < a.toNat := by omega
          right
          simp [strLeB, if_neg hba, hgt]

theorem strLeB_trans : ∀ x y z, strLeB x y = true → strLeB y z = true →
    strLeB x z = true
  | [], _, _, _, _ => rfl
  | _ :: _, [], _, h1, _ => by simp [strLeB] at h1
  | _ :: _, _ :: _, [], _, h2 => by simp [strLeB] at h2
  | a :: as, b :: bs, c :: cs, h1, h2 => by
      by_cases hab : a = b
      · subst hab
        by_cases hac : a = c
        · subst hac
          have h1x : strLeB as bs = true := by simpa [strLeB] using h1
          have h2x : strLeB bs cs = true := by simpa [strLeB] using h2
          simpa [strLeB] using strLeB_trans as bs cs h1x h2x
        · have h2x : a.toNat < c.toNat := by
            simpa [strLeB, if_neg hac] using h2
          simp [strLeB, if_neg hac, h2x]
      · have h1x : a.toNat < b.toNat := by
          simpa [strLeB, if_neg hab] using h1
        by_cases hbc : b = c
        · subst hbc
          simp [strLeB, if_neg hab, h1x]
        · have h2x : b.toNat < c.toNat := by
            simpa [strLeB, if_neg hbc] using h2
          have hac : a ≠ c := by
            intro h
            subst h
            omega
          have hlt : a.toNat < c.toNat := by omega
          simp [strLeB, if_neg hac, hlt]

theorem strLeB_antisym : ∀ x y, strLeB x y = true → strLeB y x = true →
    x = y
  | [], [], _, _ => rfl
  | [], _ :: _, _, h2 => by simp [strLeB] at h2
  | _ :: _, [], h1, _ => by simp [strLeB] at h1
  | a :: as, b :: bs, h1, h2 => by
      by_cases hab : a = b
      · subst hab
        have h1x : strLeB as bs = true := by simpa [strLeB] using h1
        have h2x : strLeB bs as = true := by simpa [strLeB] using h2
        rw [strLeB_antisym as bs h1x h2x]
      · have hba : b ≠ a := fun hc => hab hc.symm
        have h1x : a.toNat < b.toNat := by
          simpa [strLeB, if_neg hab] using h1
        have h2x : b.toNat < a.toNat := by
          simpa [strLeB, if_neg hba] using h2
        omega

theorem sorted_perm_nodup_eq (l1 : List (String × JVal)) :
    ∀ l2, l1.Sorted keyLeV → l2.Sorted keyLeV → l1.Perm l2 →
      (l1.map Prod.fst).Nodup → l1 = l2 := by
  induction l1 with
  | nil =>
      intro l2 _ _ hp _
      exact (hp.symm.eq_nil).symm
  | cons h1 t1 ih =>
      intro l2 hs1 hs2 hp hn
      cases l2 with
      | nil => exact absurd hp.eq_nil (by simp)
      | cons h2 t2 =>
          by_cases h12 : h1 = h2
          · subst h12
            have hp2 := hp.cons_inv
            have hn2 : (t1.map Prod.fst).Nodup := by
              simp only [List.map_cons, List.nodup_cons] at hn
              exact hn.2
            rw [ih t2 (List.sorted_cons.mp hs1).2
              (List.sorted_cons.mp hs2).2 hp2 hn2]
          · exfalso
            have hmem1 : h1 ∈ h2 :: t2 :=
              hp.mem_iff.mp (List.mem_cons_self h1 t1)
            have h1t2 : h1 ∈ t2 := by
              rcases List.mem_cons.mp hmem1 with h | h
              · exact absurd h h12
              · exact h
            have hmem2 : h2 ∈ h1 :: t1 :=
              hp.mem_iff.mpr (List.mem_cons_self h2 t2)
            have h2t1 : h2 ∈ t1 := by
              rcases List.mem_cons.mp hmem2 with h | h
              · exact absurd h.symm h12
              · exact h
            have hr1 : keyLeV h1 h2 := (List.sorted_cons.mp hs1).1 h2 h2t1
            have hr2 : keyLeV h2 h1 := (List.sorted_cons.mp hs2).1 h1 h1t2
            have hkey : h1.1 = h2.1 :=
              str_toList_inj (strLeB_antisym _ _ hr1 hr2)
            have hmem : h1.1 ∈ t1.map Prod.fst := by
              rw [hkey]
              exact List.mem_map_of_mem Prod.fst h2t1
            simp only [List.map_cons, List.nodup_cons] at hn
            exact hn.1 hmem

theorem serObj_perm (m m2 : List (String × JVal)) (hp : m.Perm m2)
    (hn : (m.map Prod.fst).Nodup) : serObj m = serObj m2 := by
  haveI hto : IsTotal (String × JVal) keyLeV :=
    ⟨fun a b => strLeB_total _ _⟩
  haveI htr : IsTrans (String × JVal) keyLeV :=
    ⟨fun a b c h1 h2 => strLeB_trans _ _ _ h1 h2⟩
  have hs1 : (List.insertionSort keyLeV m).Sorted keyLeV :=
    List.sorted_insertionSort keyLeV m
  have hs2 : (List.insertionSort keyLeV m2).Sorted keyLeV :=
    List.sorted_insertionSort keyLeV m2
  have hperm : (List.insertionSort keyLeV m).Perm
      (List.insertionSort keyLeV m2) :=
    (List.perm_insertionSort keyLeV m).trans
      (hp.trans (List.perm_insertionSort keyLeV m2).symm)
  have hns : ((List.insertionSort keyLeV m).map Prod.fst).Nodup :=
    (((List.perm_insertionSort keyLeV m).map Prod.fst).symm).nodup hn
  unfold serObj
  rw [sorted_perm_nodup_eq (List.insertionSort keyLeV m)
    (List.insertionSort keyLeV m2) hs1 hs2 hperm hns]

theorem jLookup_perm (k : String) (m m2 : List (String × JVal))
    (hp : m.Perm m2) : (m.map Prod.fst).Nodup →
    jLookup k m = jLookup k m2 := by
  induction hp with
  | nil => intro _; rfl
  | cons x p ih =>
      intro hn
      simp only [jLookup]
      by_cases hx : x.1 = k
      · rw [if_pos hx, if_pos hx]
      · rw [if_neg hx, if_neg hx]
        apply ih
        simp only [List.map_cons, List.nodup_cons] at hn
        exact hn.2
  | swap x y l =>
      intro hn
      simp only [jLookup]
      by_cases hy : y.1 = k
      · by_cases hx : x.1 = k
        · exfalso
          simp only [List.map_cons, List.nodup_cons, List.mem_cons] at hn
          exact hn.1 (Or.inl (hy.trans hx.symm))
        · rw [if_pos hy, if_neg hx, if_pos hy]
      · by_cases hx : x.1 = k
        · rw [if_neg hy, if_pos hx, if_pos hx]
        · rw [if_neg hy, if_neg hx, if_neg hx, if_neg hy]
  | trans p1 p2 ih1 ih2 =>
      intro hn
      exact (ih1 hn).trans (ih2 ((p1.map Prod.fst).nodup hn))

theorem removeSig_nodup (m : List (String × JVal))
    (hn : (m.map Prod.fst).Nodup) :
    ((removeSig m).map Prod.fst).Nodup :=
  hn.sublist ((List.filter_sublist m).map Prod.fst)

theorem verify_perm (key : Option String)
    (m m2 : List (String × JVal)) (hp : m.Perm m2)
    (hn : (m.map Prod.fst).Nodup) :
    verifyManifest key m = verifyManifest key m2 := by
  cases key with
  | none => rfl
  | some k =>
      simp only [verifyManifest]
      by_cases hk : k = ""
      · rw [if_pos hk, if_pos hk]
      · rw [if_neg hk, if_neg hk,
          jLookup_perm "signature" m m2 hp hn,
          serObj_perm (removeSig m) (removeSig m2) (hp.filter _)
            (removeSig_nodup m hn)]

/-- Claim C6: with no manifest key (or an empty one) the verifier accepts
any manifest; with a key set and the signature field absent it rejects;
with a key and a non-empty string signature it accepts exactly when the
signature equals the HMAC-SHA-256 hex over the canonical JSON bytes of
the manifest with the signature field removed (keys sorted, minimal
separators); and permuting the manifest's top-level fields never changes
the verification result (whitespace cannot matter: the verifier consumes
the parsed object, not the transmitted text). -/
theorem claimC6_manifest_signature :
    (∀ m : List (String × JVal), verifyManifest none m = Except.ok () ∧
        verifyManifest (some "") m = Except.ok ()) ∧
    (∀ (k : String) (m : List (String × JVal)), k ≠ "" →
        jLookup "signature" m = none →
        verifyManifest (some k) m =
          Except.error OtaErr.missingSignature) ∧
    (∀ (k : String) (m : List (String × JVal)) (sig : String), k ≠ "" →
        jLookup "signature" m = some (JVal.scal (JScal.s sig)) →
        sig ≠ "" →
        (verifyManifest (some k) m = Except.ok () ↔
          hmacSha256Hex (strBytes k) (serObj (removeSig m)) = sig)) ∧
    (∀ (key : Option String) (m m2 : List (String × JVal)),
        m.Perm m2 → (m.map Prod.fst).Nodup →
        verifyManifest key m = verifyManifest key m2) := by
  refine ⟨?_, ?_, ?_, verify_perm⟩
  · intro m
    exact ⟨rfl, rfl⟩
  · intro k m hk hl
    simp only [verifyManifest]
    rw [if_neg hk, hl]
  · intro k m sig hk hl hs
    simp only [verifyManifest]
    rw [if_neg hk, hl]
    simp only [sigValue]
    rw [if_neg hs]
    by_cases hh : hmacSha256Hex (strBytes k) (serObj (removeSig m)) = sig
    · rw [if_pos hh]
      simp [hh]
    · rw [if_neg hh]
      simp [hh]

/-- Witness for claim C6: a two-field manifest correctly signed with key
k verifies, in either field order. -/
theorem claimC6_witness :
    verifyManifest (some "k")
      [("signature", JVal.scal (JScal.s (hmacSha256Hex (strBytes "k")
          (serObj [("version", JVal.scal (JScal.s "1.0"))])))),
        ("version", JVal.scal (JScal.s "1.0"))] = Except.ok () ∧
    verifyManifest (some "k")
      [("version", JVal.scal (JScal.s "1.0")),
        ("signature", JVal.scal (JScal.s (hmacSha256Hex (strBytes "k")
          (serObj [("version", JVal.scal (JScal.s "1.0"))]))))] =
      Except.ok () := by
  have h1 := (claimC6_manifest_signature.2.2.1 "k"
    [("signature", JVal.scal (JScal.s (hmacSha256Hex (strBytes "k")
        (serObj [("version", JVal.scal (JScal.s "1.0"))])))),
      ("version", JVal.scal (JScal.s "1.0"))]
    (hmacSha256Hex (strBytes "k")
      (serObj [("version", JVal.scal (JScal.s "1.0"))]))
    (by decide) (by simp [jLookup]) (by decide)).mpr (by decide)
  have h2 := claimC6_manifest_signature.2.2.2 (some "k")
    [("signature", JVal.scal (JScal.s (hmacSha256Hex (strBytes "k")
        (serObj [("version", JVal.scal (JScal.s "1.0"))])))),
      ("version", JVal.scal (JScal.s "1.0"))]
    [("version", JVal.scal (JScal.s "1.0")),
      ("signature", JVal.scal (JScal.s (hmacSha256Hex (strBytes "k")
        (serObj [("version", JVal.scal (JScal.s "1.0"))]))))]
    (List.Perm.swap ("version", JVal.scal (JScal.s "1.0"))
      ("signature", JVal.scal (JScal.s (hmacSha256Hex (strBytes "k")
        (serObj [("version", JVal.scal (JScal.s "1.0"))])))) [])
    (by decide)
  exact ⟨h1, h2.symm.trans h1⟩

end Ota

